import Mathlib

/-!
Verification development for the `tobytes` codec (Python implementation in
`src/py/src/tobytes/`): a self-describing serialization layer over MessagePack
with a custom-type namespace registry (extension tag 8) and an intern table
(extension tag 6).

The embedding models:
* the MessagePack wire layer used by the code (`msgpack.packb` /
  `msgpack.unpackb`), with machine integers as `Nat`/`Int`, byte strings as
  `List Nat`, and IEEE-754 doubles by their 64-bit bit patterns (MessagePack
  copies float bytes verbatim, so the wire round-trip is bytewise);
* `Codec._default_encoder`, `InternTable` / `InternContext` (encode side),
  `Codec.dumps` (`codec.py`, `intern_table.py`);
* `Codec._ext_hook`, `InternContext.handle_intern_reference`,
  `InternContext.decode_intern_table`, `Codec.loads`;
* the namespace registry operations (`add_namespace`, `add_module`,
  `clear_namespaces`, `_rebuild_type_map`).

Python strings are modelled by their UTF-8 byte sequences.  `id()` object
identities are modelled as explicit `Nat` addresses carried by the values that
the code compares by identity.
-/

namespace ToBytes

/-! ## Byte-level helpers (big-endian integers, as used by MessagePack) -/

/-- The `k`-byte big-endian encoding of `n % 2^(8*k)`. -/
def beBytes : Nat → Nat → List Nat
  | 0, _ => []
  | k + 1, n => beBytes k (n / 256) ++ [n % 256]

/-- Big-endian value of a byte list. -/
def beVal (bs : List Nat) : Nat :=
  bs.foldl (fun a b => a * 256 + b) 0

/-- Split off the first `k` bytes, failing when fewer are available. -/
def readN (k : Nat) (bs : List Nat) : Option (List Nat × List Nat) :=
  if k ≤ bs.length then some (bs.take k, bs.drop k) else none

theorem beBytes_length (k n : Nat) : (beBytes k n).length = k := by
  induction k generalizing n with
  | zero => rfl
  | succ k ih => simp [beBytes, ih]

theorem beVal_append (bs : List Nat) (b : Nat) :
    beVal (bs ++ [b]) = beVal bs * 256 + b := by
  simp [beVal, List.foldl_append]

theorem beVal_beBytes (k n : Nat) : beVal (beBytes k n) = n % 2 ^ (8 * k) := by
  induction k generalizing n with
  | zero => simp [beBytes, beVal, Nat.mod_one]
  | succ k ih =>
      rw [beBytes, beVal_append, ih]
      have h8 : 8 * (k + 1) = 8 * k + 8 := by ring
      rw [h8, pow_add, Nat.mul_comm (2 ^ (8 * k)) (2 ^ 8), Nat.mod_mul]
      norm_num
      omega

theorem beVal_beBytes_of_lt (k n : Nat) (h : n < 2 ^ (8 * k)) :
    beVal (beBytes k n) = n := by
  rw [beVal_beBytes, Nat.mod_eq_of_lt h]

theorem readN_exact (xs rest : List Nat) :
    readN xs.length (xs ++ rest) = some (xs, rest) := by
  simp [readN, List.take_left, List.drop_left]

/-! ## MessagePack value domain

The values handled by `msgpack.packb`/`msgpack.unpackb` as the codec invokes
them (`strict_types=True`, `raw=False`): nil, bool, int, float (as the 64-bit
IEEE-754 bit pattern), str (UTF-8 bytes), bin, array, map (insertion-ordered
pairs, as produced/consumed by Python dicts), and extension records. -/

inductive MValue : Type where
  | nil : MValue
  | bool (b : Bool) : MValue
  | int (n : Int) : MValue
  | float (bits : Nat) : MValue
  | str (s : List Nat) : MValue
  | bin (b : List Nat) : MValue
  | arr (xs : List MValue) : MValue
  | map (kvs : List (MValue × MValue)) : MValue
  | ext (code : Int) (payload : List Nat) : MValue

/-! ## Packing (model of `msgpack.packb`)

Header/format selection follows the msgpack-python packer: the smallest
format that fits is chosen. -/

/-- Format choice of the msgpack packer for an integer (positive fixint,
negative fixint, uint8/16/32/64, int8/16/32/64). -/
def packInt (n : Int) : List Nat :=
  if 0 ≤ n then
    let m := n.toNat
    if m < 0x80 then [m]
    else if m < 0x100 then [0xcc, m]
    else if m < 0x10000 then 0xcd :: beBytes 2 m
    else if m < 0x100000000 then 0xce :: beBytes 4 m
    else 0xcf :: beBytes 8 m
  else
    if -0x20 ≤ n then [(n + 0x100).toNat]
    else if -0x80 ≤ n then [0xd0, (n + 0x100).toNat]
    else if -0x8000 ≤ n then 0xd1 :: beBytes 2 (n + 0x10000).toNat
    else if -0x80000000 ≤ n then 0xd2 :: beBytes 4 (n + 0x100000000).toNat
    else 0xd3 :: beBytes 8 (n + 0x10000000000000000).toNat

def packStrHeader (n : Nat) : List Nat :=
  if n < 32 then [0xa0 + n]
  else if n < 0x100 then [0xd9, n]
  else if n < 0x10000 then 0xda :: beBytes 2 n
  else 0xdb :: beBytes 4 n

def packBinHeader (n : Nat) : List Nat :=
  if n < 0x100 then [0xc4, n]
  else if n < 0x10000 then 0xc5 :: beBytes 2 n
  else 0xc6 :: beBytes 4 n

def packArrayHeader (n : Nat) : List Nat :=
  if n < 16 then [0x90 + n]
  else if n < 0x10000 then 0xdc :: beBytes 2 n
  else 0xdd :: beBytes 4 n

def packMapHeader (n : Nat) : List Nat :=
  if n < 16 then [0x80 + n]
  else if n < 0x10000 then 0xde :: beBytes 2 n
  else 0xdf :: beBytes 4 n

/-- Extension header: fixext for payload sizes 1/2/4/8/16, else ext8/16/32.
The type byte is the code as a signed byte (`ExtType` restricts codes to
0..127, where it coincides with the code itself). -/
def packExtHeader (code : Int) (n : Nat) : List Nat :=
  let t := (code % 256).toNat
  if n = 1 then [0xd4, t]
  else if n = 2 then [0xd5, t]
  else if n = 4 then [0xd6, t]
  else if n = 8 then [0xd7, t]
  else if n = 16 then [0xd8, t]
  else if n < 0x100 then [0xc7, n, t]
  else if n < 0x10000 then 0xc8 :: (beBytes 2 n ++ [t])
  else 0xc9 :: (beBytes 4 n ++ [t])

mutual

/-- Model of `msgpack.packb` on the plain MessagePack domain. -/
def pack : MValue → List Nat
  | .nil => [0xc0]
  | .bool false => [0xc2]
  | .bool true => [0xc3]
  | .int n => packInt n
  | .float bits => 0xcb :: beBytes 8 bits
  | .str s => packStrHeader s.length ++ s
  | .bin b => packBinHeader b.length ++ b
  | .arr xs => packArrayHeader xs.length ++ packList xs
  | .map kvs => packMapHeader kvs.length ++ packKV kvs
  | .ext code payload => packExtHeader code payload.length ++ payload

def packList : List MValue → List Nat
  | [] => []
  | v :: vs => pack v ++ packList vs

def packKV : List (MValue × MValue) → List Nat
  | [] => []
  | (k, v) :: kvs => pack k ++ pack v ++ packKV kvs

end

mutual

/-- Node count of a value; used as a fuel bound for the unpacker. -/
def MValue.size : MValue → Nat
  | .arr xs => 1 + MValue.sizeList xs
  | .map kvs => 1 + MValue.sizeKV kvs
  | _ => 1

def MValue.sizeList : List MValue → Nat
  | [] => 0
  | v :: vs => MValue.size v + MValue.sizeList vs

def MValue.sizeKV : List (MValue × MValue) → Nat
  | [] => 0
  | (k, v) :: kvs => MValue.size k + MValue.size v + MValue.sizeKV kvs

end

mutual

/-- Well-formedness for packing: the ranges accepted by the msgpack packer
(`packb` raises on integers outside `[-2^63, 2^64)`, lengths `≥ 2^32`;
`ExtType` restricts codes to 0..127), plus every byte being a byte. -/
def MValue.wf : MValue → Bool
  | .nil => true
  | .bool _ => true
  | .int n => decide (-(2 ^ 63 : Int) ≤ n) && decide (n < (2 ^ 64 : Int))
  | .float bits => decide (bits < 2 ^ 64)
  | .str s => decide (s.length < 2 ^ 32) && s.all (· < 256)
  | .bin b => decide (b.length < 2 ^ 32) && b.all (· < 256)
  | .arr xs => decide (xs.length < 2 ^ 32) && MValue.wfList xs
  | .map kvs => decide (kvs.length < 2 ^ 32) && MValue.wfKV kvs
  | .ext code payload =>
      decide (0 ≤ code) && decide (code ≤ 127) &&
      decide (payload.length < 2 ^ 32) && payload.all (· < 256)

def MValue.wfList : List MValue → Bool
  | [] => true
  | v :: vs => MValue.wf v && MValue.wfList vs

def MValue.wfKV : List (MValue × MValue) → Bool
  | [] => true
  | (k, v) :: kvs => MValue.wf k && MValue.wf v && MValue.wfKV kvs

end

/-! ## Unpacking (model of the msgpack unpacker's wire layer)

`munpack fuel bs` parses one value off the front of `bs` and returns it with
the remaining bytes; `none` models a msgpack parse error (OutOfData, reserved
byte 0xc1, …).  `fuel` bounds parser recursion depth and is immaterial when
large enough (every value of `n` nodes needs at most `n` fuel).  Extension
records are returned raw (the default, hookless behaviour); the hook layer of
the codec is modelled separately below.  The wire timestamp extension
(type byte 0xff, decoded to a `Timestamp` object by the Python library) is
not modelled: this codec can never produce it (`ExtType` codes are 0..127)
and no input below contains it. -/

/-- Exact widening of an IEEE-754 single bit pattern to a double bit pattern
(the unpacker converts float32 wire values to Python floats, i.e. doubles). -/
def f32ToF64 (b : Nat) : Nat :=
  let s := b / 2 ^ 31 % 2
  let e := b / 2 ^ 23 % 256
  let m := b % 2 ^ 23
  if e = 255 then s * 2 ^ 63 + 2047 * 2 ^ 52 + m * 2 ^ 29
  else if e ≠ 0 then s * 2 ^ 63 + (e + 896) * 2 ^ 52 + m * 2 ^ 29
  else if m = 0 then s * 2 ^ 63
  else
    let l := Nat.log2 m
    s * 2 ^ 63 + (l + 874) * 2 ^ 52 + (m * 2 ^ (52 - l) - 2 ^ 52)

/-- Read a `k`-byte big-endian length field. -/
def readLen (k : Nat) (bs : List Nat) : Option (Nat × List Nat) :=
  (readN k bs).map fun p => (beVal p.1, p.2)

def munpackStrBody (len : Nat) (bs : List Nat) : Option (MValue × List Nat) :=
  (readN len bs).map fun p => (.str p.1, p.2)

def munpackBinBody (len : Nat) (bs : List Nat) : Option (MValue × List Nat) :=
  (readN len bs).map fun p => (.bin p.1, p.2)

/-- Extension body: one type byte (signed), then `len` payload bytes. -/
def munpackExtBody (len : Nat) (bs : List Nat) : Option (MValue × List Nat) :=
  match bs with
  | [] => none
  | t :: rest =>
      if t = 255 then none
      else
        (readN len rest).map fun p =>
          (.ext (if t < 128 then (t : Int) else (t : Int) - 256) p.1, p.2)

def munpackUint (k : Nat) (bs : List Nat) : Option (MValue × List Nat) :=
  (readN k bs).map fun p => (.int (beVal p.1), p.2)

def munpackSint (k : Nat) (bs : List Nat) : Option (MValue × List Nat) :=
  (readN k bs).map fun p =>
    (.int (if beVal p.1 < 2 ^ (8 * k - 1) then (beVal p.1 : Int)
           else (beVal p.1 : Int) - 2 ^ (8 * k)), p.2)

/-- Parse `n` consecutive values with the element parser `p`. -/
def parseSeq (p : List Nat → Option (MValue × List Nat)) :
    Nat → List Nat → Option (List MValue × List Nat)
  | 0, bs => some ([], bs)
  | n + 1, bs => do
    let (v, r) ← p bs
    let (vs, r2) ← parseSeq p n r
    pure (v :: vs, r2)

/-- Parse `n` consecutive key/value pairs with the element parser `p`. -/
def parsePairs (p : List Nat → Option (MValue × List Nat)) :
    Nat → List Nat → Option (List (MValue × MValue) × List Nat)
  | 0, bs => some ([], bs)
  | n + 1, bs => do
    let (k, r) ← p bs
    let (v, r2) ← p r
    let (kvs, r3) ← parsePairs p n r2
    pure ((k, v) :: kvs, r3)

/-- Array body: `n` elements parsed with `p`. -/
def parseArrBody (p : List Nat → Option (MValue × List Nat)) (n : Nat)
    (bs : List Nat) : Option (MValue × List Nat) :=
  (parseSeq p n bs).map fun q => (MValue.arr q.1, q.2)

/-- Map body: `n` key/value pairs parsed with `p`. -/
def parseMapBody (p : List Nat → Option (MValue × List Nat)) (n : Nat)
    (bs : List Nat) : Option (MValue × List Nat) :=
  (parsePairs p n bs).map fun q => (MValue.map q.1, q.2)

/-- One dispatch step of the unpacker; `p` parses nested elements. -/
def munpackGo (p : List Nat → Option (MValue × List Nat)) :
    List Nat → Option (MValue × List Nat)
  | [] => none
  | b :: bs =>
    if b < 0x80 then some (.int b, bs)
    else if b < 0x90 then parseMapBody p (b - 0x80) bs
    else if b < 0xa0 then parseArrBody p (b - 0x90) bs
    else if b < 0xc0 then munpackStrBody (b - 0xa0) bs
    else if b = 0xc0 then some (.nil, bs)
    else if b = 0xc1 then none
    else if b = 0xc2 then some (.bool false, bs)
    else if b = 0xc3 then some (.bool true, bs)
    else if b = 0xc4 then do let (n, r) ← readLen 1 bs; munpackBinBody n r
    else if b = 0xc5 then do let (n, r) ← readLen 2 bs; munpackBinBody n r
    else if b = 0xc6 then do let (n, r) ← readLen 4 bs; munpackBinBody n r
    else if b = 0xc7 then do let (n, r) ← readLen 1 bs; munpackExtBody n r
    else if b = 0xc8 then do let (n, r) ← readLen 2 bs; munpackExtBody n r
    else if b = 0xc9 then do let (n, r) ← readLen 4 bs; munpackExtBody n r
    else if b = 0xca then (readN 4 bs).map fun p => (.float (f32ToF64 (beVal p.1)), p.2)
    else if b = 0xcb then (readN 8 bs).map fun p => (.float (beVal p.1), p.2)
    else if b = 0xcc then munpackUint 1 bs
    else if b = 0xcd then munpackUint 2 bs
    else if b = 0xce then munpackUint 4 bs
    else if b = 0xcf then munpackUint 8 bs
    else if b = 0xd0 then munpackSint 1 bs
    else if b = 0xd1 then munpackSint 2 bs
    else if b = 0xd2 then munpackSint 4 bs
    else if b = 0xd3 then munpackSint 8 bs
    else if b = 0xd4 then munpackExtBody 1 bs
    else if b = 0xd5 then munpackExtBody 2 bs
    else if b = 0xd6 then munpackExtBody 4 bs
    else if b = 0xd7 then munpackExtBody 8 bs
    else if b = 0xd8 then munpackExtBody 16 bs
    else if b = 0xd9 then do let (n, r) ← readLen 1 bs; munpackStrBody n r
    else if b = 0xda then do let (n, r) ← readLen 2 bs; munpackStrBody n r
    else if b = 0xdb then do let (n, r) ← readLen 4 bs; munpackStrBody n r
    else if b = 0xdc then do let (n, r) ← readLen 2 bs; parseArrBody p n r
    else if b = 0xdd then do let (n, r) ← readLen 4 bs; parseArrBody p n r
    else if b = 0xde then do let (n, r) ← readLen 2 bs; parseMapBody p n r
    else if b = 0xdf then do let (n, r) ← readLen 4 bs; parseMapBody p n r
    else some (.int ((b : Int) - 256), bs)

/-- The unpacker's wire layer, with a recursion-depth fuel. -/
def munpack : Nat → List Nat → Option (MValue × List Nat)
  | 0, _ => none
  | fuel + 1, bs => munpackGo (munpack fuel) bs

/-! ## Wire round-trip: `munpack` inverts `pack` -/

theorem readN_append (k : Nat) (xs rest : List Nat) (h : xs.length = k) :
    readN k (xs ++ rest) = some (xs, rest) := by
  subst h; exact readN_exact xs rest

theorem beVal_singleton (b : Nat) : beVal [b] = b := by
  simp [beVal]

theorem munpackUint_beBytes (k m : Nat) (rest : List Nat) (hm : m < 2 ^ (8 * k)) :
    munpackUint k (beBytes k m ++ rest) = some (.int m, rest) := by
  rw [munpackUint, readN_append k _ _ (beBytes_length k m)]
  simp [beVal_beBytes_of_lt k m hm]

theorem munpackUint_one (x : Nat) (rest : List Nat) :
    munpackUint 1 (x :: rest) = some (.int x, rest) := by
  have hr : readN 1 (x :: rest) = some ([x], rest) := readN_append 1 [x] rest (by simp)
  rw [munpackUint, hr]
  simp [beVal_singleton]

theorem munpackSint_beBytes_neg (k m : Nat) (rest : List Nat)
    (hm : m < 2 ^ (8 * k)) (hlow : 2 ^ (8 * k - 1) ≤ m) :
    munpackSint k (beBytes k m ++ rest) =
      some (.int ((m : Int) - 2 ^ (8 * k)), rest) := by
  rw [munpackSint, readN_append k _ _ (beBytes_length k m)]
  simp only [Option.map_some']
  rw [beVal_beBytes_of_lt k m hm, if_neg (Nat.not_lt.mpr hlow)]

theorem munpackSint_one (x : Nat) (rest : List Nat) (h1 : 128 ≤ x) (h2 : x < 256) :
    munpackSint 1 (x :: rest) = some (.int ((x : Int) - 256), rest) := by
  have hr : readN 1 (x :: rest) = some ([x], rest) := readN_append 1 [x] rest (by simp)
  rw [munpackSint, hr]
  simp only [Option.map_some']
  rw [beVal_singleton, if_neg (by omega)]
  norm_num

theorem munpackGo_negfix (p : List Nat → Option (MValue × List Nat)) (b : Nat)
    (bs : List Nat) (hb : 0xe0 ≤ b) (hb2 : b < 0x100) :
    munpackGo p (b :: bs) = some (.int ((b : Int) - 256), bs) := by
  rw [munpackGo]
  repeat rw [if_neg (by omega)]

theorem munpackGo_packInt (p : List Nat → Option (MValue × List Nat)) (n : Int)
    (rest : List Nat) (h1 : -(2 ^ 63 : Int) ≤ n) (h2 : n < (2 ^ 64 : Int)) :
    munpackGo p (packInt n ++ rest) = some (.int n, rest) := by
  rcases le_or_lt 0 n with hn | hn
  · have hmn : ((n.toNat : Int)) = n := Int.toNat_of_nonneg hn
    rw [packInt, if_pos hn]
    by_cases c1 : n.toNat < 0x80
    · rw [if_pos c1, List.cons_append, munpackGo, if_pos c1]
      simp [hmn]
    · rw [if_neg c1]
      by_cases c2 : n.toNat < 0x100
      · rw [if_pos c2, List.cons_append, munpackGo]
        norm_num
        show munpackUint 1 (n.toNat :: rest) = _
        rw [munpackUint_one, hmn]
      · rw [if_neg c2]
        by_cases c3 : n.toNat < 0x10000
        · rw [if_pos c3, List.cons_append, munpackGo]
          norm_num
          rw [munpackUint_beBytes 2 _ _ (by omega), hmn]
        · rw [if_neg c3]
          by_cases c4 : n.toNat < 0x100000000
          · rw [if_pos c4, List.cons_append, munpackGo]
            norm_num
            rw [munpackUint_beBytes 4 _ _ (by omega), hmn]
          · rw [if_neg c4, List.cons_append, munpackGo]
            norm_num
            rw [munpackUint_beBytes 8 _ _ (by omega), hmn]
  · rw [packInt, if_neg (by omega)]
    by_cases c1 : -0x20 ≤ n
    · rw [if_pos c1, List.cons_append,
        munpackGo_negfix p _ _ (by omega) (by omega)]
      have hv : ((n + 0x100).toNat : Int) - 256 = n := by omega
      rw [hv]
      simp
    · rw [if_neg c1]
      by_cases c2 : -0x80 ≤ n
      · rw [if_pos c2, List.cons_append, munpackGo]
        norm_num
        show munpackSint 1 ((n + 0x100).toNat :: rest) = _
        rw [munpackSint_one _ _ (by omega) (by omega)]
        have hv : ((n + 0x100).toNat : Int) - 256 = n := by omega
        rw [hv]
      · rw [if_neg c2]
        by_cases c3 : -0x8000 ≤ n
        · rw [if_pos c3, List.cons_append, munpackGo]
          norm_num
          rw [munpackSint_beBytes_neg 2 _ _ (by omega) (by omega)]
          have hv : ((n + 0x10000).toNat : Int) - 2 ^ (8 * 2) = n := by omega
          rw [hv]
        · rw [if_neg c3]
          by_cases c4 : -0x80000000 ≤ n
          · rw [if_pos c4, List.cons_append, munpackGo]
            norm_num
            rw [munpackSint_beBytes_neg 4 _ _ (by omega) (by omega)]
            have hv : ((n + 0x100000000).toNat : Int) - 2 ^ (8 * 4) = n := by omega
            rw [hv]
          · rw [if_neg c4, List.cons_append, munpackGo]
            norm_num
            rw [munpackSint_beBytes_neg 8 _ _ (by omega) (by omega)]
            have hv : ((n + 0x10000000000000000).toNat : Int) - 2 ^ (8 * 8) = n := by
              omega
            rw [hv]

theorem readLen_one (x : Nat) (r : List Nat) : readLen 1 (x :: r) = some (x, r) := by
  have hr : readN 1 (x :: r) = some ([x], r) := readN_append 1 [x] r (by simp)
  rw [readLen, hr]
  simp [beVal_singleton]

theorem readLen_beBytes (k n : Nat) (r : List Nat) (h : n < 2 ^ (8 * k)) :
    readLen k (beBytes k n ++ r) = some (n, r) := by
  rw [readLen, readN_append k _ _ (beBytes_length k n)]
  simp [beVal_beBytes_of_lt k n h]

theorem munpackGo_nil (p : List Nat → Option (MValue × List Nat)) (rest : List Nat) :
    munpackGo p (pack .nil ++ rest) = some (.nil, rest) := by
  show munpackGo p (0xc0 :: rest) = _
  rw [munpackGo]
  norm_num

theorem munpackGo_bool (p : List Nat → Option (MValue × List Nat)) (b : Bool)
    (rest : List Nat) :
    munpackGo p (pack (.bool b) ++ rest) = some (.bool b, rest) := by
  cases b
  · show munpackGo p (0xc2 :: rest) = _
    rw [munpackGo]
    norm_num
  · show munpackGo p (0xc3 :: rest) = _
    rw [munpackGo]
    norm_num

theorem munpackGo_float (p : List Nat → Option (MValue × List Nat)) (bits : Nat)
    (rest : List Nat) (h : bits < 2 ^ 64) :
    munpackGo p (pack (.float bits) ++ rest) = some (.float bits, rest) := by
  show munpackGo p (0xcb :: (beBytes 8 bits ++ rest)) = _
  rw [munpackGo]
  norm_num
  rw [readN_append 8 _ _ (beBytes_length 8 bits)]
  simp [beVal_beBytes_of_lt 8 bits h]

theorem munpackStrBody_append (s rest : List Nat) :
    munpackStrBody s.length (s ++ rest) = some (.str s, rest) := by
  rw [munpackStrBody, readN_exact]
  rfl

theorem munpackBinBody_append (s rest : List Nat) :
    munpackBinBody s.length (s ++ rest) = some (.bin s, rest) := by
  rw [munpackBinBody, readN_exact]
  rfl

theorem munpackGo_str (p : List Nat → Option (MValue × List Nat)) (s rest : List Nat)
    (h : s.length < 2 ^ 32) :
    munpackGo p (pack (.str s) ++ rest) = some (.str s, rest) := by
  rw [pack, packStrHeader, List.append_assoc]
  by_cases c1 : s.length < 32
  · rw [if_pos c1]
    show munpackGo p ((0xa0 + s.length) :: (s ++ rest)) = _
    rw [munpackGo, if_neg (by omega), if_neg (by omega), if_neg (by omega),
      if_pos (by omega)]
    have hl : 0xa0 + s.length - 0xa0 = s.length := by omega
    rw [hl, munpackStrBody_append]
  · rw [if_neg c1]
    by_cases c2 : s.length < 0x100
    · rw [if_pos c2]
      show munpackGo p (0xd9 :: (s.length :: (s ++ rest))) = _
      rw [munpackGo]
      norm_num
      rw [readLen_one]
      show munpackStrBody s.length (s ++ rest) = _
      rw [munpackStrBody_append]
    · rw [if_neg c2]
      by_cases c3 : s.length < 0x10000
      · rw [if_pos c3]
        show munpackGo p (0xda :: (beBytes 2 s.length ++ (s ++ rest))) = _
        rw [munpackGo]
        norm_num
        rw [readLen_beBytes 2 _ _ (by omega)]
        show munpackStrBody s.length (s ++ rest) = _
        rw [munpackStrBody_append]
      · rw [if_neg c3]
        show munpackGo p (0xdb :: (beBytes 4 s.length ++ (s ++ rest))) = _
        rw [munpackGo]
        norm_num
        rw [readLen_beBytes 4 _ _ (by omega)]
        show munpackStrBody s.length (s ++ rest) = _
        rw [munpackStrBody_append]

theorem munpackGo_bin (p : List Nat → Option (MValue × List Nat)) (s rest : List Nat)
    (h : s.length < 2 ^ 32) :
    munpackGo p (pack (.bin s) ++ rest) = some (.bin s, rest) := by
  rw [pack, packBinHeader, List.append_assoc]
  by_cases c1 : s.length < 0x100
  · rw [if_pos c1]
    show munpackGo p (0xc4 :: (s.length :: (s ++ rest))) = _
    rw [munpackGo]
    norm_num
    rw [readLen_one]
    show munpackBinBody s.length (s ++ rest) = _
    rw [munpackBinBody_append]
  · rw [if_neg c1]
    by_cases c2 : s.length < 0x10000
    · rw [if_pos c2]
      show munpackGo p (0xc5 :: (beBytes 2 s.length ++ (s ++ rest))) = _
      rw [munpackGo]
      norm_num
      rw [readLen_beBytes 2 _ _ (by omega)]
      show munpackBinBody s.length (s ++ rest) = _
      rw [munpackBinBody_append]
    · rw [if_neg c2]
      show munpackGo p (0xc6 :: (beBytes 4 s.length ++ (s ++ rest))) = _
      rw [munpackGo]
      norm_num
      rw [readLen_beBytes 4 _ _ (by omega)]
      show munpackBinBody s.length (s ++ rest) = _
      rw [munpackBinBody_append]

theorem munpackExtBody_code (code : Int) (payload rest : List Nat)
    (h0 : 0 ≤ code) (h127 : code ≤ 127) :
    munpackExtBody payload.length ((code % 256).toNat :: (payload ++ rest)) =
      some (.ext code payload, rest) := by
  rw [munpackExtBody, if_neg (by omega), readN_exact, if_pos (by omega)]
  have hc : (((code % 256).toNat : Int)) = code := by omega
  rw [hc]
  rfl

theorem munpackGo_ext (p : List Nat → Option (MValue × List Nat)) (code : Int)
    (payload rest : List Nat) (h0 : 0 ≤ code) (h127 : code ≤ 127)
    (hlen : payload.length < 2 ^ 32) :
    munpackGo p (pack (.ext code payload) ++ rest) = some (.ext code payload, rest) := by
  rw [pack, packExtHeader, List.append_assoc]
  have ht : (code % 256).toNat < 128 := by omega
  by_cases c1 : payload.length = 1
  · rw [if_pos c1]
    show munpackGo p (0xd4 :: ((code % 256).toNat :: (payload ++ rest))) = _
    rw [munpackGo]
    norm_num
    rw [← c1, munpackExtBody_code code payload rest h0 h127]
  · rw [if_neg c1]
    by_cases c2 : payload.length = 2
    · rw [if_pos c2]
      show munpackGo p (0xd5 :: ((code % 256).toNat :: (payload ++ rest))) = _
      rw [munpackGo]
      norm_num
      rw [← c2, munpackExtBody_code code payload rest h0 h127]
    · rw [if_neg c2]
      by_cases c3 : payload.length = 4
      · rw [if_pos c3]
        show munpackGo p (0xd6 :: ((code % 256).toNat :: (payload ++ rest))) = _
        rw [munpackGo]
        norm_num
        rw [← c3, munpackExtBody_code code payload rest h0 h127]
      · rw [if_neg c3]
        by_cases c4 : payload.length = 8
        · rw [if_pos c4]
          show munpackGo p (0xd7 :: ((code % 256).toNat :: (payload ++ rest))) = _
          rw [munpackGo]
          norm_num
          rw [← c4, munpackExtBody_code code payload rest h0 h127]
        · rw [if_neg c4]
          by_cases c5 : payload.length = 16
          · rw [if_pos c5]
            show munpackGo p (0xd8 :: ((code % 256).toNat :: (payload ++ rest))) = _
            rw [munpackGo]
            norm_num
            rw [← c5, munpackExtBody_code code payload rest h0 h127]
          · rw [if_neg c5]
            by_cases c6 : payload.length < 0x100
            · rw [if_pos c6]
              show munpackGo p
                (0xc7 :: (payload.length :: ((code % 256).toNat :: (payload ++ rest)))) = _
              rw [munpackGo]
              norm_num
              rw [readLen_one]
              show munpackExtBody payload.length
                ((code % 256).toNat :: (payload ++ rest)) = _
              rw [munpackExtBody_code code payload rest h0 h127]
            · rw [if_neg c6]
              by_cases c7 : payload.length < 0x10000
              · rw [if_pos c7]
                show munpackGo p (0xc8 ::
                  (beBytes 2 payload.length ++ ((code % 256).toNat :: (payload ++ rest)))) = _
                rw [munpackGo]
                norm_num
                rw [readLen_beBytes 2 _ _ (by omega)]
                show munpackExtBody payload.length
                  ((code % 256).toNat :: (payload ++ rest)) = _
                rw [munpackExtBody_code code payload rest h0 h127]
              · rw [if_neg c7]
                show munpackGo p (0xc9 ::
                  (beBytes 4 payload.length ++ ((code % 256).toNat :: (payload ++ rest)))) = _
                rw [munpackGo]
                norm_num
                rw [readLen_beBytes 4 _ _ (by omega)]
                show munpackExtBody payload.length
                  ((code % 256).toNat :: (payload ++ rest)) = _
                rw [munpackExtBody_code code payload rest h0 h127]

theorem munpackGo_arrHeader (p : List Nat → Option (MValue × List Nat)) (n : Nat)
    (bs : List Nat) (h : n < 2 ^ 32) :
    munpackGo p (packArrayHeader n ++ bs) = parseArrBody p n bs := by
  rw [packArrayHeader]
  by_cases c1 : n < 16
  · rw [if_pos c1]
    show munpackGo p ((0x90 + n) :: bs) = _
    rw [munpackGo, if_neg (by omega), if_neg (by omega), if_pos (by omega)]
    have hl : 0x90 + n - 0x90 = n := by omega
    rw [hl]
  · rw [if_neg c1]
    by_cases c2 : n < 0x10000
    · rw [if_pos c2]
      show munpackGo p (0xdc :: (beBytes 2 n ++ bs)) = _
      rw [munpackGo]
      norm_num
      rw [readLen_beBytes 2 _ _ (by omega)]
      rfl
    · rw [if_neg c2]
      show munpackGo p (0xdd :: (beBytes 4 n ++ bs)) = _
      rw [munpackGo]
      norm_num
      rw [readLen_beBytes 4 _ _ (by omega)]
      rfl

theorem munpackGo_mapHeader (p : List Nat → Option (MValue × List Nat)) (n : Nat)
    (bs : List Nat) (h : n < 2 ^ 32) :
    munpackGo p (packMapHeader n ++ bs) = parseMapBody p n bs := by
  rw [packMapHeader]
  by_cases c1 : n < 16
  · rw [if_pos c1]
    show munpackGo p ((0x80 + n) :: bs) = _
    rw [munpackGo, if_neg (by omega), if_pos (by omega)]
    have hl : 0x80 + n - 0x80 = n := by omega
    rw [hl]
  · rw [if_neg c1]
    by_cases c2 : n < 0x10000
    · rw [if_pos c2]
      show munpackGo p (0xde :: (beBytes 2 n ++ bs)) = _
      rw [munpackGo]
      norm_num
      rw [readLen_beBytes 2 _ _ (by omega)]
      rfl
    · rw [if_neg c2]
      show munpackGo p (0xdf :: (beBytes 4 n ++ bs)) = _
      rw [munpackGo]
      norm_num
      rw [readLen_beBytes 4 _ _ (by omega)]
      rfl

theorem parseSeq_packList (p : List Nat → Option (MValue × List Nat))
    (xs : List MValue) (rest : List Nat)
    (h : ∀ x ∈ xs, ∀ r, p (pack x ++ r) = some (x, r)) :
    parseSeq p xs.length (packList xs ++ rest) = some (xs, rest) := by
  induction xs generalizing rest with
  | nil => simp [parseSeq, packList]
  | cons v vs ih =>
      have hv := h v (List.mem_cons_self v vs) (packList vs ++ rest)
      simp only [packList, List.append_assoc, List.length_cons, parseSeq, hv]
      show (parseSeq p vs.length (packList vs ++ rest)).bind
        (fun q => some (v :: q.1, q.2)) = some (v :: vs, rest)
      rw [ih rest (fun x hx r => h x (List.mem_cons_of_mem v hx) r)]
      rfl

theorem parsePairs_packKV (p : List Nat → Option (MValue × List Nat))
    (kvs : List (MValue × MValue)) (rest : List Nat)
    (h : ∀ kv ∈ kvs, (∀ r, p (pack kv.1 ++ r) = some (kv.1, r)) ∧
      (∀ r, p (pack kv.2 ++ r) = some (kv.2, r))) :
    parsePairs p kvs.length (packKV kvs ++ rest) = some (kvs, rest) := by
  induction kvs generalizing rest with
  | nil => simp [parsePairs, packKV]
  | cons kv kvs ih =>
      obtain ⟨k, v⟩ := kv
      have hk : p (pack k ++ (pack v ++ (packKV kvs ++ rest)))
          = some (k, pack v ++ (packKV kvs ++ rest)) :=
        (h (k, v) (List.mem_cons_self _ _)).1 _
      have hv : p (pack v ++ (packKV kvs ++ rest)) = some (v, packKV kvs ++ rest) :=
        (h (k, v) (List.mem_cons_self _ _)).2 _
      simp only [packKV, List.append_assoc, List.length_cons, parsePairs, hk]
      show (p (pack v ++ (packKV kvs ++ rest))).bind
        (fun q => (parsePairs p kvs.length q.2).bind
          (fun q2 => some ((k, q.1) :: q2.1, q2.2))) = some ((k, v) :: kvs, rest)
      rw [hv]
      show (parsePairs p kvs.length (packKV kvs ++ rest)).bind
        (fun q2 => some ((k, v) :: q2.1, q2.2)) = some ((k, v) :: kvs, rest)
      rw [ih rest (fun x hx => h x (List.mem_cons_of_mem _ hx))]
      rfl

theorem MValue.size_pos (v : MValue) : 1 ≤ v.size := by
  cases v <;> simp [MValue.size]

theorem MValue.sizeList_le (x : MValue) (xs : List MValue) (hx : x ∈ xs) :
    x.size ≤ MValue.sizeList xs := by
  induction xs with
  | nil => cases hx
  | cons v vs ih =>
      rcases List.mem_cons.mp hx with h | h
      · subst h; rw [MValue.sizeList]; omega
      · have := ih h; rw [MValue.sizeList]; omega

theorem MValue.sizeKV_le (kv : MValue × MValue) (kvs : List (MValue × MValue))
    (hx : kv ∈ kvs) : kv.1.size + kv.2.size ≤ MValue.sizeKV kvs := by
  induction kvs with
  | nil => cases hx
  | cons p ps ih =>
      obtain ⟨a, b⟩ := p
      rcases List.mem_cons.mp hx with h | h
      · subst h
        dsimp only
        rw [MValue.sizeKV]
        omega
      · have := ih h
        rw [MValue.sizeKV]
        omega

theorem MValue.wfList_mem (x : MValue) (xs : List MValue)
    (h : MValue.wfList xs = true) (hx : x ∈ xs) : x.wf = true := by
  induction xs with
  | nil => cases hx
  | cons v vs ih =>
      rw [MValue.wfList, Bool.and_eq_true] at h
      rcases List.mem_cons.mp hx with hh | hh
      · subst hh; exact h.1
      · exact ih h.2 hh

theorem MValue.wfKV_mem (kv : MValue × MValue) (kvs : List (MValue × MValue))
    (h : MValue.wfKV kvs = true) (hx : kv ∈ kvs) :
    kv.1.wf = true ∧ kv.2.wf = true := by
  induction kvs with
  | nil => cases hx
  | cons p ps ih =>
      obtain ⟨a, b⟩ := p
      rw [MValue.wfKV, Bool.and_eq_true, Bool.and_eq_true] at h
      rcases List.mem_cons.mp hx with hh | hh
      · subst hh; exact ⟨h.1.1, h.1.2⟩
      · exact ih h.2 hh

/-- Round-trip of the wire layer: unpacking packed bytes returns the value and
leaves trailing bytes untouched, for any fuel of at least the node count. -/
theorem munpack_pack (fuel : Nat) (v : MValue) (rest : List Nat)
    (hwf : v.wf = true) (hs : v.size ≤ fuel) :
    munpack fuel (pack v ++ rest) = some (v, rest) := by
  induction fuel generalizing v rest with
  | zero => exact absurd hs (by have := MValue.size_pos v; omega)
  | succ fuel ih =>
      rw [munpack]
      cases v with
      | nil => exact munpackGo_nil _ _
      | bool b => exact munpackGo_bool _ b _
      | int n =>
          simp only [MValue.wf, Bool.and_eq_true, decide_eq_true_eq] at hwf
          exact munpackGo_packInt _ n rest hwf.1 hwf.2
      | float bits =>
          simp only [MValue.wf, decide_eq_true_eq] at hwf
          exact munpackGo_float _ bits rest hwf
      | str s =>
          simp only [MValue.wf, Bool.and_eq_true, decide_eq_true_eq] at hwf
          exact munpackGo_str _ s rest hwf.1
      | bin b =>
          simp only [MValue.wf, Bool.and_eq_true, decide_eq_true_eq] at hwf
          exact munpackGo_bin _ b rest hwf.1
      | ext code payload =>
          simp only [MValue.wf, Bool.and_eq_true, decide_eq_true_eq] at hwf
          exact munpackGo_ext _ code payload rest hwf.1.1.1 hwf.1.1.2 hwf.1.2
      | arr xs =>
          simp only [MValue.wf, Bool.and_eq_true, decide_eq_true_eq] at hwf
          rw [MValue.size] at hs
          rw [pack, List.append_assoc, munpackGo_arrHeader _ _ _ hwf.1, parseArrBody,
            parseSeq_packList (munpack fuel) xs rest ?helems]
          · rfl
          case helems =>
            intro x hx r
            exact ih x r (MValue.wfList_mem x xs hwf.2 hx)
              (le_trans (MValue.sizeList_le x xs hx) (by omega))
      | map kvs =>
          simp only [MValue.wf, Bool.and_eq_true, decide_eq_true_eq] at hwf
          rw [MValue.size] at hs
          rw [pack, List.append_assoc, munpackGo_mapHeader _ _ _ hwf.1, parseMapBody,
            parsePairs_packKV (munpack fuel) kvs rest ?hpairs]
          · rfl
          case hpairs =>
            intro kv hkv
            have hw := MValue.wfKV_mem kv kvs hwf.2 hkv
            have hsz := MValue.sizeKV_le kv kvs hkv
            have h1 := MValue.size_pos kv.1
            have h2 := MValue.size_pos kv.2
            constructor
            · intro r
              exact ih kv.1 r hw.1 (by omega)
            · intro r
              exact ih kv.2 r hw.2 (by omega)

/-! ## User-value domain for encoding

`EValue` is the object graph handed to `Codec.dumps`: the MessagePack-native
values plus `Intern` wrapper objects and instances of registered user classes.
Python object identities (`id()`) are modelled as explicit `Nat` addresses:
an `Intern` wrapper carries its own identity `wid` and the identity `addr` of
the wrapped value (`id(wrapper.value)`, the key used by the intern table);
a user-class instance carries its identity `oid` and its concrete type `ty`
(`type(obj)`, as a type tag). -/

inductive EValue : Type where
  | nil : EValue
  | bool (b : Bool) : EValue
  | int (n : Int) : EValue
  | float (bits : Nat) : EValue
  | str (s : List Nat) : EValue
  | bin (b : List Nat) : EValue
  | arr (xs : List EValue) : EValue
  | map (kvs : List (EValue × EValue)) : EValue
  | ext (code : Int) (payload : List Nat) : EValue
  | intern (wid : Nat) (addr : Nat) (byIdentity : Bool) (v : EValue) : EValue
  | obj (oid : Nat) (ty : Nat) (data : EValue) : EValue

mutual

/-- Python `==` on encoder-side values (used by the `by_equality` scan over
`originals`): structural on the MessagePack-native values (floats compared by
bit pattern), and default object equality — identity — on `Intern` wrappers
and user-class instances. -/
def EValue.beq : EValue → EValue → Bool
  | .nil, .nil => true
  | .bool a, .bool b => a == b
  | .int a, .int b => a == b
  | .float a, .float b => a == b
  | .str a, .str b => a == b
  | .bin a, .bin b => a == b
  | .arr a, .arr b => EValue.beqList a b
  | .map a, .map b => EValue.beqKV a b
  | .ext c1 p1, .ext c2 p2 => c1 == c2 && p1 == p2
  | .intern w1 _ _ _, .intern w2 _ _ _ => w1 == w2
  | .obj o1 _ _, .obj o2 _ _ => o1 == o2
  | _, _ => false

def EValue.beqList : List EValue → List EValue → Bool
  | [], [] => true
  | x :: xs, y :: ys => EValue.beq x y && EValue.beqList xs ys
  | _, _ => false

def EValue.beqKV : List (EValue × EValue) → List (EValue × EValue) → Bool
  | [], [] => true
  | (k1, v1) :: xs, (k2, v2) :: ys =>
      EValue.beq k1 k2 && EValue.beq v1 v2 && EValue.beqKV xs ys
  | _, _ => false

end

mutual

/-- The logical MessagePack value of an encoder-side value: `Intern` wrappers
stand for their wrapped value; user-class instances have no MessagePack
counterpart and are mapped to `nil` (only meaningful under `primitive`). -/
def EValue.toM : EValue → MValue
  | .nil => .nil
  | .bool b => .bool b
  | .int n => .int n
  | .float bits => .float bits
  | .str s => .str s
  | .bin b => .bin b
  | .arr xs => .arr (EValue.toMList xs)
  | .map kvs => .map (EValue.toMKV kvs)
  | .ext code payload => .ext code payload
  | .intern _ _ _ v => EValue.toM v
  | .obj _ _ _ => .nil

def EValue.toMList : List EValue → List MValue
  | [] => []
  | v :: vs => EValue.toM v :: EValue.toMList vs

def EValue.toMKV : List (EValue × EValue) → List (MValue × MValue)
  | [] => []
  | (k, v) :: kvs => (EValue.toM k, EValue.toM v) :: EValue.toMKV kvs

end

mutual

/-- MessagePack-primitive: nil, bool, integer, float, string, binary, array,
map — no `Intern` wrappers, no user-class instances, no extension records. -/
def EValue.primitive : EValue → Bool
  | .nil => true
  | .bool _ => true
  | .int _ => true
  | .float _ => true
  | .str _ => true
  | .bin _ => true
  | .arr xs => EValue.primitiveList xs
  | .map kvs => EValue.primitiveKV kvs
  | .ext _ _ => false
  | .intern _ _ _ _ => false
  | .obj _ _ _ => false

def EValue.primitiveList : List EValue → Bool
  | [] => true
  | v :: vs => EValue.primitive v && EValue.primitiveList vs

def EValue.primitiveKV : List (EValue × EValue) → Bool
  | [] => true
  | (k, v) :: kvs => EValue.primitive k && EValue.primitive v && EValue.primitiveKV kvs

end

/-! ## Namespace registry (`codec.py`)

Python dicts are modelled as insertion-ordered association lists with
assignment-overwrite (`aset`) and lookup (`alookup`). -/

def alookup {κ α : Type} [DecidableEq κ] (k : κ) : List (κ × α) → Option α
  | [] => none
  | (k2, v) :: rest => if k = k2 then some v else alookup k rest

/-- Python dict assignment: overwrite in place, else append. -/
def aset {κ α : Type} [DecidableEq κ] (k : κ) (v : α) : List (κ × α) → List (κ × α)
  | [] => [(k, v)]
  | (k2, v2) :: rest => if k = k2 then (k, v) :: rest else (k2, v2) :: aset k v rest

/-- A registered `CustomTypeCodec`: concrete Python type and the user's
encoder/decoder functions (opaque; the decoder may fail, modelling a raised
exception). -/
structure TypedCodec : Type where
  pyType : Nat
  enc : EValue → List Nat
  dec : List Nat → Option MValue

/-- The `matches`/`encode`/`decode` methods of a `CustomNameSpace` subclass. -/
structure CatchAllNs : Type where
  matchesFn : EValue → Bool
  encodeFn : EValue → List Nat
  decodeFn : List Nat → Option MValue

/-- A namespace value: a typed mapping `type_id ↦ CustomTypeCodec`, or a
catch-all `CustomNameSpace` object. -/
inductive Namespace : Type where
  | typed (types : List (Nat × TypedCodec)) : Namespace
  | catchAll (c : CatchAllNs) : Namespace

/-- An entry of `Codec.namespaces`, together with the Python object identity
needed by `add_module`'s `is` comparison: `moduleId = some i` when the stored
object is literally the `NamespaceModule` with identity `i` (possible via
`add_namespace` or the constructor namespaces argument); the fresh dicts
returned by `custom_types()` are never a module, hence `none`. -/
structure StoredNs : Type where
  moduleId : Option Nat
  ns : Namespace

/-- A `NamespaceModule`: its object identity, its name, and its accumulated
codecs keyed by type id (ids are unique: `_check_unique_id`). -/
structure NamespaceModule : Type where
  oid : Nat
  name : List Nat
  types : List (Nat × TypedCodec)

/-- `NamespaceModule.custom_types()`: the dict `{type_id: CustomTypeCodec}`
built from the module's codec list (a fresh dict object). -/
def NamespaceModule.customTypes (m : NamespaceModule) : List (Nat × TypedCodec) :=
  m.types

/-- The codec state relevant to dispatch: the namespace registry.
(`_type_map` is rebuilt from it on every mutation and is modelled as the
derived value `buildTypeMap`.) -/
structure Codec : Type where
  namespaces : List (List Nat × StoredNs)

/-- `Codec._rebuild_type_map`: walk namespaces in insertion order, skip
catch-alls, and assign `codec.py_type ↦ (namespace, type_id, codec)` —
later assignments overwrite earlier ones. -/
def buildTypeMap (nss : List (List Nat × StoredNs)) :
    List (Nat × (List Nat × Nat × TypedCodec)) :=
  nss.foldl
    (fun acc p =>
      match p.2.ns with
      | .catchAll _ => acc
      | .typed types =>
          types.foldl (fun acc2 q => aset q.2.pyType (p.1, q.1, q.2) acc2) acc)
    []

/-- The catch-all fallback loop of `_default_encoder`: first namespace (in
insertion order) that is a `CustomNameSpace` and whose `matches` accepts the
value. -/
def findCatchAll (v : EValue) : List (List Nat × StoredNs) →
    Option (List Nat × CatchAllNs)
  | [] => none
  | (name, stored) :: rest =>
      match stored.ns with
      | .catchAll ca =>
          if ca.matchesFn v then some (name, ca) else findCatchAll v rest
      | .typed _ => findCatchAll v rest

/-- `Codec.add_namespace`: raises `DuplicateNamespace` when the name is
registered (the codec is unchanged — the raise precedes any mutation),
otherwise stores the namespace. -/
def Codec.add_namespace (c : Codec) (name : List Nat) (stored : StoredNs) :
    Codec × Bool :=
  if (alookup name c.namespaces).isSome then (c, false)
  else ({ namespaces := aset name stored c.namespaces }, true)

/-- `Codec.add_module`: raises `DuplicateNamespace` when the name is taken by
an object that is not literally `module` itself (the codec is unchanged — the
raise precedes any mutation); otherwise stores `module.custom_types()`
(a fresh dict, not the module). The second component is `false` on the raise. -/
def Codec.add_module (c : Codec) (m : NamespaceModule) : Codec × Bool :=
  match alookup m.name c.namespaces with
  | some stored =>
      if stored.moduleId = some m.oid then
        ({ namespaces := aset m.name ⟨none, .typed m.customTypes⟩ c.namespaces }, true)
      else (c, false)
  | none =>
      ({ namespaces := aset m.name ⟨none, .typed m.customTypes⟩ c.namespaces }, true)

/-- `Codec.clear_namespaces`. -/
def Codec.clear_namespaces (_ : Codec) : Codec :=
  { namespaces := [] }

/-! ## Encode side: intern table and `dumps` (`intern_table.py`, `codec.py`) -/

/-- Encoding errors: the `Cannot serialize` TypeError raised by
`_default_encoder`, and the range errors the msgpack packer raises
(integer overflow, oversized lengths). -/
inductive EErr : Type where
  | unserializable (ty : Nat) : EErr
  | overflow : EErr
deriving DecidableEq, Repr

/-- Encode-side `InternTable`: `table` holds the entry blobs (already-encoded
bytes), `originals` the pre-encode values, `by_id` maps `id(value)` to the
entry index. -/
structure InternTableE : Type where
  table : List (List Nat)
  originals : List EValue
  by_id : List (Nat × Nat)
deriving Inhabited

/-- `InternContext` (encode side): at most one table, `active` flag. -/
structure InternContextE : Type where
  active : Bool
  table : Option InternTableE
deriving Inhabited

/-- The inactive context (`InternContext.__init__` / after `end_table`). -/
def InternContextE.idle : InternContextE := ⟨false, none⟩

/-- `InternContext.ensure_table`: start a fresh table when none is active. -/
def InternContextE.ensure_table (st : InternContextE) : InternContextE :=
  if st.active then st else ⟨true, some ⟨[], [], []⟩⟩

/-- `InternTable._find`: identity lookup in `by_id`, or a linear equality scan
over `originals` (first match wins). -/
def InternTableE.findIn (t : InternTableE) (value : EValue) (byIdentity : Bool)
    (addr : Nat) : Option Nat :=
  if byIdentity then alookup addr t.by_id
  else
    let rec scan : List EValue → Nat → Option Nat
      | [], _ => none
      | o :: os, i => if EValue.beq o value then some i else scan os (i + 1)
    scan t.originals 0

/-- `InternTable.get_bytes`: array header for the entry count followed by the
concatenated entry blobs. -/
def InternTableE.get_bytes (t : InternTableE) : List Nat :=
  packArrayHeader t.table.length ++ t.table.foldr (fun e acc => e ++ acc) []

mutual

/-- `msgpack.packb(obj, default=codec._default_encoder, strict_types=True)`.

Native values are packed by the msgpack wire layer; `Intern` wrappers and
user-class instances reach `_default_encoder`, which consults the intern
context or the registry and returns an `ExtType` that the packer then packs.
The intern-context state threads through the pass and is preserved on errors
(a raise leaves the Python object as it was). The user encoder functions in
the registry are opaque byte producers. -/
def epack (c : Codec) : EValue → InternContextE →
    (Except EErr (List Nat)) × InternContextE
  | .nil, st => (.ok (pack .nil), st)
  | .bool b, st => (.ok (pack (.bool b)), st)
  | .int n, st =>
      if -(2 ^ 63 : Int) ≤ n ∧ n < (2 ^ 64 : Int) then (.ok (packInt n), st)
      else (.error .overflow, st)
  | .float bits, st => (.ok (pack (.float bits)), st)
  | .str s, st =>
      if s.length < 2 ^ 32 then (.ok (packStrHeader s.length ++ s), st)
      else (.error .overflow, st)
  | .bin b, st =>
      if b.length < 2 ^ 32 then (.ok (packBinHeader b.length ++ b), st)
      else (.error .overflow, st)
  | .arr xs, st =>
      if xs.length < 2 ^ 32 then
        match epackList c xs st with
        | (.ok body, st1) => (.ok (packArrayHeader xs.length ++ body), st1)
        | (.error e, st1) => (.error e, st1)
      else (.error .overflow, st)
  | .map kvs, st =>
      if kvs.length < 2 ^ 32 then
        match epackKV c kvs st with
        | (.ok body, st1) => (.ok (packMapHeader kvs.length ++ body), st1)
        | (.error e, st1) => (.error e, st1)
      else (.error .overflow, st)
  | .ext code payload, st =>
      if payload.length < 2 ^ 32 then (.ok (pack (.ext code payload)), st)
      else (.error .overflow, st)
  | .intern _ addr byIdentity v, st =>
      -- `_default_encoder` Intern branch: `InternContext.intern` =
      -- `ensure_table` then `InternTable.intern`.
      let st1 := st.ensure_table
      let t := st1.table.getD default
      match t.findIn v byIdentity addr with
      | some i => (.ok (pack (.ext 6 (packInt i))), st1)
      | none =>
          -- encode the value first (handles nested Interns, keeps the
          -- topological order), then append
          match epack c v st1 with
          | (.error e, st2) => (.error e, st2)
          | (.ok blob, st2) =>
              let t2 := st2.table.getD default
              let idx := t2.table.length
              let t3 : InternTableE :=
                { table := t2.table ++ [blob],
                  originals := t2.originals ++ [v],
                  by_id := if byIdentity then aset addr idx t2.by_id else t2.by_id }
              (.ok (pack (.ext 6 (packInt idx))), { st2 with table := some t3 })
  | .obj oid ty data, st =>
      -- `_default_encoder` dispatch: exact-type map first, then catch-alls.
      match alookup ty (buildTypeMap c.namespaces) with
      | some (nsName, tid, codec) =>
          let payload := pack (.str nsName) ++ packInt tid ++
            codec.enc (.obj oid ty data)
          (if payload.length < 2 ^ 32 then .ok (pack (.ext 8 payload))
           else .error .overflow, st)
      | none =>
          match findCatchAll (.obj oid ty data) c.namespaces with
          | some (nsName, ca) =>
              let payload := pack (.str nsName) ++ packInt 0 ++
                ca.encodeFn (.obj oid ty data)
              (if payload.length < 2 ^ 32 then .ok (pack (.ext 8 payload))
               else .error .overflow, st)
          | none => (.error (.unserializable ty), st)

def epackList (c : Codec) : List EValue → InternContextE →
    (Except EErr (List Nat)) × InternContextE
  | [], st => (.ok [], st)
  | v :: vs, st =>
      match epack c v st with
      | (.error e, st1) => (.error e, st1)
      | (.ok bv, st1) =>
          match epackList c vs st1 with
          | (.error e, st2) => (.error e, st2)
          | (.ok bvs, st2) => (.ok (bv ++ bvs), st2)

def epackKV (c : Codec) : List (EValue × EValue) → InternContextE →
    (Except EErr (List Nat)) × InternContextE
  | [], st => (.ok [], st)
  | (k, v) :: kvs, st =>
      match epack c k st with
      | (.error e, st1) => (.error e, st1)
      | (.ok bk, st1) =>
          match epack c v st1 with
          | (.error e, st2) => (.error e, st2)
          | (.ok bv, st2) =>
              match epackKV c kvs st2 with
              | (.error e, st3) => (.error e, st3)
              | (.ok bkvs, st3) => (.ok (bk ++ bv ++ bkvs), st3)

end

/-- `InternContext.maybe_wrap_with_table`: wrap the body in an ext-6 record
when an active non-empty table exists (the packer raises on payloads of 2^32
bytes or more), else return the body unchanged; the `finally` block ends the
table whenever one is active. -/
def InternContextE.maybe_wrap (st : InternContextE) (body : List Nat) :
    (Except EErr (List Nat)) × InternContextE :=
  let out : Except EErr (List Nat) :=
    if st.active then
      match st.table with
      | some t =>
          if 0 < t.table.length then
            if (t.get_bytes ++ body).length < 2 ^ 32 then
              .ok (pack (.ext 6 (t.get_bytes ++ body)))
            else .error .overflow
          else .ok body
      | none => .ok body
    else .ok body
  (out, if st.active then .idle else st)

/-- `Codec.dumps`: force-close any leftover context, pack with the default
encoder hook, then `maybe_wrap_with_table` (which tears the context down).
If the pack raises, the error propagates and the context is left as the pack
left it. -/
def Codec.dumps (c : Codec) (obj : EValue) (st0 : InternContextE) :
    (Except EErr (List Nat)) × InternContextE :=
  let st := if st0.active then InternContextE.idle else st0
  match epack c obj st with
  | (.error e, st1) => (.error e, st1)
  | (.ok body, st1) => st1.maybe_wrap body

/-! ## Decode side: extension hook, intern-table state machine, `loads`
(`codec.py::_ext_hook`, `intern_table.py::InternContext`) -/

/-- Decoding errors.  `malformed`/`extraData` model the msgpack unpacker's
own exceptions (OutOfData, reserved bytes, ExtraData); the rest are the
errors raised by the codec's hook and the intern context. -/
inductive DErr : Type where
  | malformed : DErr
  | extraData : DErr
  | strayReference : DErr
  | forwardReference : DErr
  | indexError : DErr
  | nonIntIndex : DErr
  | nestedTable : DErr
  | unknownNamespace : DErr
  | unknownTypeId : DErr
  | decoderFailed : DErr
deriving DecidableEq, Repr

/-- Decode-side `InternContext` state: the `active` flag, and the table of
decoded entries when one exists. -/
structure DCtx : Type where
  active : Bool
  table : Option (List MValue)
deriving Inhabited

/-- The inactive decode context. -/
def DCtx.idle : DCtx := ⟨false, none⟩

/-- `InternContext.handle_intern_reference`: ext-6 payload seen while a table
is active. `msgpack.unpackb(data)` (default hook; trailing bytes raise
ExtraData), then the checks: no table is a stray reference; an index at or
past the current entry count is a forward reference; a negative index raises
IndexError in `InternTable.__getitem__`; a non-integer index makes the `>=`
comparison raise TypeError. Reads the context without mutating it. -/
def handleInternRef (munp : List Nat → Option (MValue × List Nat))
    (st : DCtx) (payload : List Nat) : Except DErr MValue :=
  match munp payload with
  | none => .error .malformed
  | some (v, rest) =>
      if rest ≠ [] then .error .extraData
      else
        match st.table with
        | none => .error .strayReference
        | some entries =>
            match v with
            | .int k =>
                if (entries.length : Int) ≤ k then .error .forwardReference
                else if k < 0 then .error .indexError
                else .ok (entries.getD k.toNat .nil)
            | _ => .error .nonIntIndex

/-- `_ext_hook`, code-8 branch: parse the namespace string and type id off the
payload front (with a plain unpacker), look them up, and run the registered
decoder on the remaining bytes. -/
def customDecode (c : Codec) (munp : List Nat → Option (MValue × List Nat))
    (payload : List Nat) : Except DErr MValue :=
  match munp payload with
  | none => .error .malformed
  | some (nsVal, rest1) =>
      match munp rest1 with
      | none => .error .malformed
      | some (tidVal, remaining) =>
          match nsVal with
          | .str nsName =>
              match alookup nsName c.namespaces with
              | none => .error .unknownNamespace
              | some stored =>
                  match stored.ns with
                  | .catchAll ca =>
                      match ca.decodeFn remaining with
                      | some v => .ok v
                      | none => .error .decoderFailed
                  | .typed types =>
                      match tidVal with
                      | .int tid =>
                          match types.find? (fun q => (q.1 : Int) = tid) with
                          | some q =>
                              match q.2.dec remaining with
                              | some v => .ok v
                              | none => .error .decoderFailed
                          | none => .error .unknownTypeId
                      | _ => .error .unknownTypeId
          | _ => .error .unknownNamespace

/-- `Unpacker.read_array_header`: accepts exactly the array formats. -/
def readArrayHeader : List Nat → Option (Nat × List Nat)
  | [] => none
  | b :: bs =>
      if 0x90 ≤ b ∧ b ≤ 0x9f then some (b - 0x90, bs)
      else if b = 0xdc then readLen 2 bs
      else if b = 0xdd then readLen 4 bs
      else none

/-- The entry-loading loop of `InternTable.load`: unpack `n` entries with the
hook-aware parser `p`, appending each decoded entry to the context's table
(so an entry being loaded can reference the entries before it). -/
def loadEntries (p : DCtx → List Nat → (Except DErr (MValue × List Nat)) × DCtx) :
    Nat → DCtx → List Nat → (Except DErr Unit) × DCtx
  | 0, st, _ => (.ok (), st)
  | n + 1, st, bs =>
      match p st bs with
      | (.error e, st1) => (.error e, st1)
      | (.ok (v, r), st1) =>
          loadEntries p n { st1 with table := some (st1.table.getD [] ++ [v]) } r

/-- `InternContext.decode_intern_table`: ext-6 payload seen with no active
table. Split the payload by parsing one value with a plain unpacker
(the entries array), `start_table`, load the entries, decode the body with
the hook, and — in the `finally` — `end_table` on every exit path. -/
def decodeInternTable
    (p : DCtx → List Nat → (Except DErr (MValue × List Nat)) × DCtx)
    (munp : List Nat → Option (MValue × List Nat))
    (st : DCtx) (payload : List Nat) : (Except DErr MValue) × DCtx :=
  match munp payload with
  | none => (.error .malformed, st)
  | some (_, bodyBytes) =>
      let entriesBytes := payload.take (payload.length - bodyBytes.length)
      -- `start_table` ("Cannot nest intern tables" if one is active)
      if st.active then (.error .nestedTable, st)
      else
        match readArrayHeader entriesBytes with
        | none => (.error .malformed, DCtx.idle)
        | some (n, entRest) =>
            match loadEntries p n ⟨true, some []⟩ entRest with
            | (.error e, _) => (.error e, DCtx.idle)
            | (.ok _, st2) =>
                match p st2 bodyBytes with
                | (.error e, _) => (.error e, DCtx.idle)
                | (.ok (v, rest), _) =>
                    if rest ≠ [] then (.error .extraData, DCtx.idle)
                    else (.ok v, DCtx.idle)

/-- `Codec._ext_hook`: tag 6 is a reference inside an active table and a
frame outside one; tag 8 is a custom type; any other tag is preserved as an
opaque extension record. -/
def extHook (c : Codec)
    (p : DCtx → List Nat → (Except DErr (MValue × List Nat)) × DCtx)
    (munp : List Nat → Option (MValue × List Nat))
    (st : DCtx) (code : Int) (payload : List Nat) : (Except DErr MValue) × DCtx :=
  if code = 6 then
    if st.active then (handleInternRef munp st payload, st)
    else decodeInternTable p munp st payload
  else if code = 8 then (customDecode c munp payload, st)
  else (.ok (.ext code payload), st)

mutual

/-- Apply the extension hook over a parsed value tree in document order —
the order in which the streaming unpacker fires the hook — threading the
intern-context state. -/
def applyHook
    (hook : DCtx → Int → List Nat → (Except DErr MValue) × DCtx)
    (st : DCtx) : MValue → (Except DErr MValue) × DCtx
  | .ext code payload => hook st code payload
  | .arr xs =>
      match applyHookList hook st xs with
      | (.ok ys, st1) => (.ok (.arr ys), st1)
      | (.error e, st1) => (.error e, st1)
  | .map kvs =>
      match applyHookKV hook st kvs with
      | (.ok ys, st1) => (.ok (.map ys), st1)
      | (.error e, st1) => (.error e, st1)
  | .nil => (.ok .nil, st)
  | .bool b => (.ok (.bool b), st)
  | .int n => (.ok (.int n), st)
  | .float bits => (.ok (.float bits), st)
  | .str s => (.ok (.str s), st)
  | .bin b => (.ok (.bin b), st)

def applyHookList
    (hook : DCtx → Int → List Nat → (Except DErr MValue) × DCtx)
    (st : DCtx) : List MValue → (Except DErr (List MValue)) × DCtx
  | [] => (.ok [], st)
  | v :: vs =>
      match applyHook hook st v with
      | (.error e, st1) => (.error e, st1)
      | (.ok w, st1) =>
          match applyHookList hook st1 vs with
          | (.error e, st2) => (.error e, st2)
          | (.ok ws, st2) => (.ok (w :: ws), st2)

def applyHookKV
    (hook : DCtx → Int → List Nat → (Except DErr MValue) × DCtx)
    (st : DCtx) : List (MValue × MValue) →
      (Except DErr (List (MValue × MValue))) × DCtx
  | [] => (.ok [], st)
  | (k, v) :: kvs =>
      match applyHook hook st k with
      | (.error e, st1) => (.error e, st1)
      | (.ok k2, st1) =>
          match applyHook hook st1 v with
          | (.error e, st2) => (.error e, st2)
          | (.ok v2, st2) =>
              match applyHookKV hook st2 kvs with
              | (.error e, st3) => (.error e, st3)
              | (.ok ws, st3) => (.ok ((k2, v2) :: ws), st3)

end

/-- One hooked parse off the front of the stream:
`msgpack` parses the raw value (extension records as raw `(code, payload)`
leaves) and fires `_ext_hook` on each as it completes, in document order.
The model parses the raw tree first and then applies the hook over it; for
wire-well-formed inputs this agrees with the streaming interleaving. The
hook's own nested parses (frame entries/bodies) recurse at smaller fuel. -/
def hunpack (c : Codec) : Nat → DCtx → List Nat →
    (Except DErr (MValue × List Nat)) × DCtx
  | 0, st, _ => (.error .malformed, st)
  | fuel + 1, st, bs =>
      match munpack (fuel + 1) bs with
      | none => (.error .malformed, st)
      | some (v, rest) =>
          match applyHook (extHook c (hunpack c fuel) (munpack fuel)) st v with
          | (.ok w, st1) => (.ok (w, rest), st1)
          | (.error e, st1) => (.error e, st1)

/-- `Codec.loads` = `msgpack.unpackb(data, ext_hook=self._ext_hook, raw=False)`:
one value, no trailing bytes. -/
def Codec.loads (c : Codec) (data : List Nat) (st : DCtx) :
    (Except DErr MValue) × DCtx :=
  match hunpack c (data.length + 1) st data with
  | (.error e, st1) => (.error e, st1)
  | (.ok (v, rest), st1) =>
      if rest ≠ [] then (.error .extraData, st1) else (.ok v, st1)

/-! ## Predicates and resolvers for hook-level reasoning -/

mutual

/-- No extension records anywhere in the value. -/
def MValue.extFree : MValue → Bool
  | .ext _ _ => false
  | .arr xs => MValue.extFreeList xs
  | .map kvs => MValue.extFreeKV kvs
  | _ => true

def MValue.extFreeList : List MValue → Bool
  | [] => true
  | v :: vs => MValue.extFree v && MValue.extFreeList vs

def MValue.extFreeKV : List (MValue × MValue) → Bool
  | [] => true
  | (k, v) :: kvs => MValue.extFree k && MValue.extFree v && MValue.extFreeKV kvs

end

/-- The index named by a reference-form payload, when the payload is a single
packed unsigned integer. -/
def refIndex (payload : List Nat) : Option Nat :=
  match munpack 1 payload with
  | some (.int k, []) => if 0 ≤ k then some k.toNat else none
  | _ => none

mutual

/-- Every extension record in the value is a canonical intern reference
`ext 6 (pack k)` with `k < n`. -/
def MValue.refBelow (n : Nat) : MValue → Bool
  | .ext code payload =>
      decide (code = 6) &&
      (match refIndex payload with
       | some k => decide (k < n) && decide (payload = packInt (k : Int))
       | none => false)
  | .arr xs => MValue.refBelowList n xs
  | .map kvs => MValue.refBelowKV n kvs
  | _ => true

def MValue.refBelowList (n : Nat) : List MValue → Bool
  | [] => true
  | v :: vs => MValue.refBelow n v && MValue.refBelowList n vs

def MValue.refBelowKV (n : Nat) : List (MValue × MValue) → Bool
  | [] => true
  | (k, v) :: kvs =>
      MValue.refBelow n k && MValue.refBelow n v && MValue.refBelowKV n kvs

end

mutual

/-- Substitute every intern reference by the named entry of `es`
(meaningful under `refBelow es.length`). -/
def refResolve (es : List MValue) : MValue → MValue
  | .ext _ payload =>
      match refIndex payload with
      | some k => es.getD k .nil
      | none => .nil
  | .arr xs => .arr (refResolveList es xs)
  | .map kvs => .map (refResolveKV es kvs)
  | .nil => .nil
  | .bool b => .bool b
  | .int n => .int n
  | .float bits => .float bits
  | .str s => .str s
  | .bin b => .bin b

def refResolveList (es : List MValue) : List MValue → List MValue
  | [] => []
  | v :: vs => refResolve es v :: refResolveList es vs

def refResolveKV (es : List MValue) : List (MValue × MValue) →
    List (MValue × MValue)
  | [] => []
  | (k, v) :: kvs => (refResolve es k, refResolve es v) :: refResolveKV es kvs

end

/-- Member-wise induction principle for the nested inductive `MValue`. -/
theorem MValue.indOnM (motive : MValue → Prop)
    (hnil : motive .nil)
    (hbool : ∀ b, motive (.bool b))
    (hint : ∀ n, motive (.int n))
    (hfloat : ∀ bits, motive (.float bits))
    (hstr : ∀ s, motive (.str s))
    (hbin : ∀ b, motive (.bin b))
    (hext : ∀ code payload, motive (.ext code payload))
    (harr : ∀ xs, (∀ x ∈ xs, motive x) → motive (.arr xs))
    (hmap : ∀ kvs, (∀ kv ∈ kvs, motive kv.1 ∧ motive kv.2) → motive (.map kvs)) :
    ∀ v, motive v := by
  have H : ∀ n v, MValue.size v ≤ n → motive v := by
    intro n
    induction n with
    | zero =>
        intro v hv
        exact absurd hv (by have := MValue.size_pos v; omega)
    | succ n ih =>
        intro v hv
        cases v with
        | nil => exact hnil
        | bool b => exact hbool b
        | int m => exact hint m
        | float bits => exact hfloat bits
        | str s => exact hstr s
        | bin b => exact hbin b
        | ext code payload => exact hext code payload
        | arr xs =>
            refine harr xs (fun x hx => ih x ?_)
            have h1 := MValue.sizeList_le x xs hx
            rw [MValue.size] at hv
            omega
        | map kvs =>
            refine hmap kvs (fun kv hkv => ⟨ih kv.1 ?_, ih kv.2 ?_⟩)
            all_goals
              have h1 := MValue.sizeKV_le kv kvs hkv
              have h2 := MValue.size_pos kv.1
              have h3 := MValue.size_pos kv.2
              rw [MValue.size] at hv
              omega
  exact fun v => H (MValue.size v) v le_rfl

theorem extFree_refBelow (n : Nat) (v : MValue) (h : v.extFree = true) :
    v.refBelow n = true := by
  induction v using MValue.indOnM with
  | hext code payload => rw [MValue.extFree] at h; exact absurd h (by simp)
  | harr xs ih =>
      rw [MValue.extFree] at h
      rw [MValue.refBelow]
      induction xs with
      | nil => rfl
      | cons y ys ihl =>
          rw [MValue.extFreeList, Bool.and_eq_true] at h
          rw [MValue.refBelowList, Bool.and_eq_true]
          exact ⟨ih y (by simp) h.1,
            ihl (fun z hz => ih z (List.mem_cons_of_mem y hz)) h.2⟩
  | hmap kvs ih =>
      rw [MValue.extFree] at h
      rw [MValue.refBelow]
      induction kvs with
      | nil => rfl
      | cons y ys ihl =>
          obtain ⟨a, b⟩ := y
          rw [MValue.extFreeKV, Bool.and_eq_true, Bool.and_eq_true] at h
          rw [MValue.refBelowKV, Bool.and_eq_true, Bool.and_eq_true]
          refine ⟨⟨(ih (a, b) (by simp)).1 h.1.1, (ih (a, b) (by simp)).2 h.1.2⟩,
            ihl (fun z hz => ih z (List.mem_cons_of_mem _ hz)) h.2⟩
  | hnil => rfl
  | hbool b => rfl
  | hint m => rfl
  | hfloat bits => rfl
  | hstr s => rfl
  | hbin b => rfl

theorem refResolve_extFree (es : List MValue) (v : MValue)
    (h : v.extFree = true) : refResolve es v = v := by
  induction v using MValue.indOnM with
  | hext code payload => rw [MValue.extFree] at h; exact absurd h (by simp)
  | harr xs ih =>
      rw [MValue.extFree] at h
      rw [refResolve]
      congr 1
      induction xs with
      | nil => rfl
      | cons y ys ihl =>
          rw [MValue.extFreeList, Bool.and_eq_true] at h
          rw [refResolveList, ih y (by simp) h.1,
            ihl (fun z hz => ih z (List.mem_cons_of_mem y hz)) h.2]
  | hmap kvs ih =>
      rw [MValue.extFree] at h
      rw [refResolve]
      congr 1
      induction kvs with
      | nil => rfl
      | cons y ys ihl =>
          obtain ⟨a, b⟩ := y
          rw [MValue.extFreeKV, Bool.and_eq_true, Bool.and_eq_true] at h
          rw [refResolveKV, (ih (a, b) (by simp)).1 h.1.1,
            (ih (a, b) (by simp)).2 h.1.2,
            ihl (fun z hz => ih z (List.mem_cons_of_mem _ hz)) h.2]
  | hnil => rfl
  | hbool b => rfl
  | hint m => rfl
  | hfloat bits => rfl
  | hstr s => rfl
  | hbin b => rfl

/-! ## Length and header lemmas -/

theorem packInt_length_pos (n : Int) : 1 ≤ (packInt n).length := by
  rw [packInt]
  dsimp only
  split_ifs <;> simp [beBytes_length]

theorem packStrHeader_length_pos (n : Nat) : 1 ≤ (packStrHeader n).length := by
  rw [packStrHeader]
  split_ifs <;> simp [beBytes_length]

theorem packBinHeader_length_pos (n : Nat) : 1 ≤ (packBinHeader n).length := by
  rw [packBinHeader]
  split_ifs <;> simp [beBytes_length]

theorem packArrayHeader_length_pos (n : Nat) : 1 ≤ (packArrayHeader n).length := by
  rw [packArrayHeader]
  split_ifs <;> simp [beBytes_length]

theorem packMapHeader_length_pos (n : Nat) : 1 ≤ (packMapHeader n).length := by
  rw [packMapHeader]
  split_ifs <;> simp [beBytes_length]

theorem packExtHeader_length_pos (code : Int) (n : Nat) :
    1 ≤ (packExtHeader code n).length := by
  rw [packExtHeader]
  split_ifs <;> simp [beBytes_length]

theorem sizeList_le_packList_length (xs : List MValue)
    (H : ∀ x ∈ xs, MValue.size x ≤ (pack x).length) :
    MValue.sizeList xs ≤ (packList xs).length := by
  induction xs with
  | nil => simp [MValue.sizeList, packList]
  | cons y ys ihl =>
      have hy := H y (List.mem_cons_self y ys)
      have hys := ihl (fun z hz => H z (List.mem_cons_of_mem y hz))
      simp only [MValue.sizeList, packList, List.length_append]
      omega

theorem sizeKV_le_packKV_length (kvs : List (MValue × MValue))
    (H : ∀ kv ∈ kvs, MValue.size kv.1 + MValue.size kv.2 ≤
      (pack kv.1).length + (pack kv.2).length) :
    MValue.sizeKV kvs ≤ (packKV kvs).length := by
  induction kvs with
  | nil => simp [MValue.sizeKV, packKV]
  | cons y ys ihl =>
      obtain ⟨a, b⟩ := y
      have hy := H (a, b) (List.mem_cons_self _ _)
      have hys := ihl (fun z hz => H z (List.mem_cons_of_mem _ hz))
      dsimp only at hy
      simp only [MValue.sizeKV, packKV, List.length_append]
      omega

/-- Every value needs at least as many bytes as it has nodes; hence a byte
budget equal to the message length is always enough unpacker fuel. -/
theorem size_le_pack_length (v : MValue) : v.size ≤ (pack v).length := by
  induction v using MValue.indOnM with
  | hnil => simp [MValue.size, pack]
  | hbool b => cases b <;> simp [MValue.size, pack]
  | hint n =>
      have := packInt_length_pos n
      simp only [MValue.size, pack]
      omega
  | hfloat bits => simp [MValue.size, pack, beBytes_length]
  | hstr s =>
      have := packStrHeader_length_pos s.length
      simp only [MValue.size, pack, List.length_append]
      omega
  | hbin b =>
      have := packBinHeader_length_pos b.length
      simp only [MValue.size, pack, List.length_append]
      omega
  | hext code payload =>
      have := packExtHeader_length_pos code payload.length
      simp only [MValue.size, pack, List.length_append]
      omega
  | harr xs ih =>
      have h1 := packArrayHeader_length_pos xs.length
      have h2 := sizeList_le_packList_length xs ih
      simp only [MValue.size, pack, List.length_append]
      omega
  | hmap kvs ih =>
      have h1 := packMapHeader_length_pos kvs.length
      have h2 := sizeKV_le_packKV_length kvs
        (fun kv hkv => by have := ih kv hkv; omega)
      simp only [MValue.size, pack, List.length_append]
      omega

theorem readArrayHeader_packArrayHeader (n : Nat) (r : List Nat) (h : n < 2 ^ 32) :
    readArrayHeader (packArrayHeader n ++ r) = some (n, r) := by
  rw [packArrayHeader]
  by_cases c1 : n < 16
  · rw [if_pos c1]
    show readArrayHeader ((0x90 + n) :: r) = _
    rw [readArrayHeader, if_pos (by omega)]
    norm_num
  · rw [if_neg c1]
    by_cases c2 : n < 0x10000
    · rw [if_pos c2]
      show readArrayHeader (0xdc :: (beBytes 2 n ++ r)) = _
      rw [readArrayHeader]
      norm_num
      rw [readLen_beBytes 2 _ _ (by omega)]
    · rw [if_neg c2]
      show readArrayHeader (0xdd :: (beBytes 4 n ++ r)) = _
      rw [readArrayHeader]
      norm_num
      rw [readLen_beBytes 4 _ _ (by omega)]

/-! ## Hook transparency on extension-free values -/

theorem applyHook_extFree (hook : DCtx → Int → List Nat → (Except DErr MValue) × DCtx)
    (st : DCtx) (v : MValue) (h : v.extFree = true) :
    applyHook hook st v = (.ok v, st) := by
  induction v using MValue.indOnM with
  | hext code payload => rw [MValue.extFree] at h; exact absurd h (by simp)
  | harr xs ih =>
      rw [MValue.extFree] at h
      rw [applyHook]
      have hl : applyHookList hook st xs = (.ok xs, st) := by
        induction xs with
        | nil => rfl
        | cons y ys ihl =>
            rw [MValue.extFreeList, Bool.and_eq_true] at h
            rw [applyHookList, ih y (List.mem_cons_self y ys) h.1]
            dsimp only
            rw [ihl (fun z hz => ih z (List.mem_cons_of_mem y hz)) h.2]
      rw [hl]
  | hmap kvs ih =>
      rw [MValue.extFree] at h
      rw [applyHook]
      have hl : applyHookKV hook st kvs = (.ok kvs, st) := by
        induction kvs with
        | nil => rfl
        | cons y ys ihl =>
            obtain ⟨a, b⟩ := y
            rw [MValue.extFreeKV, Bool.and_eq_true, Bool.and_eq_true] at h
            rw [applyHookKV, (ih (a, b) (List.mem_cons_self _ _)).1 h.1.1]
            dsimp only
            rw [(ih (a, b) (List.mem_cons_self _ _)).2 h.1.2]
            dsimp only
            rw [ihl (fun z hz => ih z (List.mem_cons_of_mem _ hz)) h.2]
      rw [hl]
  | hnil => rfl
  | hbool b => rfl
  | hint n => rfl
  | hfloat bits => rfl
  | hstr s => rfl
  | hbin b => rfl

/-- A hooked parse of an extension-free packed value is the plain parse, and
leaves the intern context untouched. -/
theorem hunpack_extFree (c : Codec) (fuel : Nat) (st : DCtx) (v : MValue)
    (rest : List Nat) (hfree : v.extFree = true) (hwf : v.wf = true)
    (hs : v.size ≤ fuel) :
    hunpack c fuel st (pack v ++ rest) = (.ok (v, rest), st) := by
  cases fuel with
  | zero => exact absurd hs (by have := MValue.size_pos v; omega)
  | succ f =>
      have h1 : munpack (f + 1) (pack v ++ rest) = some (v, rest) :=
        munpack_pack (f + 1) v rest hwf hs
      rw [hunpack, h1]
      show (match applyHook (extHook c (hunpack c f) (munpack f)) st v with
        | (.ok w, st1) => (.ok (w, rest), st1)
        | (.error e, st1) => (.error e, st1)) = ((.ok (v, rest) : Except DErr _), st)
      rw [applyHook_extFree _ _ _ hfree]

/-! ## Induction infrastructure for `EValue` -/

mutual

def EValue.esize : EValue → Nat
  | .arr xs => 1 + EValue.esizeList xs
  | .map kvs => 1 + EValue.esizeKV kvs
  | .intern _ _ _ v => 1 + EValue.esize v
  | .obj _ _ d => 1 + EValue.esize d
  | _ => 1

def EValue.esizeList : List EValue → Nat
  | [] => 0
  | v :: vs => EValue.esize v + EValue.esizeList vs

def EValue.esizeKV : List (EValue × EValue) → Nat
  | [] => 0
  | (k, v) :: kvs => EValue.esize k + EValue.esize v + EValue.esizeKV kvs

end

theorem EValue.esize_pos (v : EValue) : 1 ≤ v.esize := by
  cases v <;> simp [EValue.esize]

theorem EValue.esizeList_le (x : EValue) (xs : List EValue) (hx : x ∈ xs) :
    x.esize ≤ EValue.esizeList xs := by
  induction xs with
  | nil => cases hx
  | cons v vs ih =>
      rcases List.mem_cons.mp hx with h | h
      · subst h; rw [EValue.esizeList]; omega
      · have := ih h; rw [EValue.esizeList]; omega

theorem EValue.esizeKV_le (kv : EValue × EValue) (kvs : List (EValue × EValue))
    (hx : kv ∈ kvs) : kv.1.esize + kv.2.esize ≤ EValue.esizeKV kvs := by
  induction kvs with
  | nil => cases hx
  | cons p ps ih =>
      obtain ⟨a, b⟩ := p
      rcases List.mem_cons.mp hx with h | h
      · subst h
        dsimp only
        rw [EValue.esizeKV]
        omega
      · have := ih h
        rw [EValue.esizeKV]
        omega

/-- Member-wise induction principle for `EValue`. -/
theorem EValue.indOnE (motive : EValue → Prop)
    (hnil : motive .nil)
    (hbool : ∀ b, motive (.bool b))
    (hint : ∀ n, motive (.int n))
    (hfloat : ∀ bits, motive (.float bits))
    (hstr : ∀ s, motive (.str s))
    (hbin : ∀ b, motive (.bin b))
    (hext : ∀ code payload, motive (.ext code payload))
    (harr : ∀ xs, (∀ x ∈ xs, motive x) → motive (.arr xs))
    (hmap : ∀ kvs, (∀ kv ∈ kvs, motive kv.1 ∧ motive kv.2) → motive (.map kvs))
    (hintern : ∀ w a b v, motive v → motive (.intern w a b v))
    (hobj : ∀ o t d, motive d → motive (.obj o t d)) :
    ∀ v, motive v := by
  have H : ∀ n v, EValue.esize v ≤ n → motive v := by
    intro n
    induction n with
    | zero =>
        intro v hv
        exact absurd hv (by have := EValue.esize_pos v; omega)
    | succ n ih =>
        intro v hv
        cases v with
        | nil => exact hnil
        | bool b => exact hbool b
        | int m => exact hint m
        | float bits => exact hfloat bits
        | str s => exact hstr s
        | bin b => exact hbin b
        | ext code payload => exact hext code payload
        | arr xs =>
            refine harr xs (fun x hx => ih x ?_)
            have h1 := EValue.esizeList_le x xs hx
            rw [EValue.esize] at hv
            omega
        | map kvs =>
            refine hmap kvs (fun kv hkv => ⟨ih kv.1 ?_, ih kv.2 ?_⟩)
            all_goals
              have h1 := EValue.esizeKV_le kv kvs hkv
              have h2 := EValue.esize_pos kv.1
              have h3 := EValue.esize_pos kv.2
              rw [EValue.esize] at hv
              omega
        | intern w a b v =>
            refine hintern w a b v (ih v ?_)
            rw [EValue.esize] at hv
            omega
        | obj o t d =>
            refine hobj o t d (ih d ?_)
            rw [EValue.esize] at hv
            omega
  exact fun v => H (EValue.esize v) v le_rfl

theorem EValue.toMList_length (xs : List EValue) :
    (EValue.toMList xs).length = xs.length := by
  induction xs with
  | nil => rfl
  | cons v vs ih => rw [EValue.toMList, List.length_cons, List.length_cons, ih]

theorem EValue.toMKV_length (kvs : List (EValue × EValue)) :
    (EValue.toMKV kvs).length = kvs.length := by
  induction kvs with
  | nil => rfl
  | cons kv kvs ih =>
      obtain ⟨a, b⟩ := kv
      rw [EValue.toMKV, List.length_cons, List.length_cons, ih]

theorem EValue.primitiveList_mem (x : EValue) (xs : List EValue)
    (h : EValue.primitiveList xs = true) (hx : x ∈ xs) : x.primitive = true := by
  induction xs with
  | nil => cases hx
  | cons v vs ih =>
      rw [EValue.primitiveList, Bool.and_eq_true] at h
      rcases List.mem_cons.mp hx with hh | hh
      · subst hh; exact h.1
      · exact ih h.2 hh

theorem EValue.primitiveKV_mem (kv : EValue × EValue) (kvs : List (EValue × EValue))
    (h : EValue.primitiveKV kvs = true) (hx : kv ∈ kvs) :
    kv.1.primitive = true ∧ kv.2.primitive = true := by
  induction kvs with
  | nil => cases hx
  | cons p ps ih =>
      obtain ⟨a, b⟩ := p
      rw [EValue.primitiveKV, Bool.and_eq_true, Bool.and_eq_true] at h
      rcases List.mem_cons.mp hx with hh | hh
      · subst hh; exact ⟨h.1.1, h.1.2⟩
      · exact ih h.2 hh

theorem EValue.wfList_toM_mem (x : EValue) (xs : List EValue)
    (h : MValue.wfList (EValue.toMList xs) = true) (hx : x ∈ xs) :
    x.toM.wf = true := by
  induction xs with
  | nil => cases hx
  | cons v vs ih =>
      rw [EValue.toMList, MValue.wfList, Bool.and_eq_true] at h
      rcases List.mem_cons.mp hx with hh | hh
      · subst hh; exact h.1
      · exact ih h.2 hh

theorem EValue.wfKV_toM_mem (kv : EValue × EValue) (kvs : List (EValue × EValue))
    (h : MValue.wfKV (EValue.toMKV kvs) = true) (hx : kv ∈ kvs) :
    kv.1.toM.wf = true ∧ kv.2.toM.wf = true := by
  induction kvs with
  | nil => cases hx
  | cons p ps ih =>
      obtain ⟨a, b⟩ := p
      rw [EValue.toMKV, MValue.wfKV, Bool.and_eq_true, Bool.and_eq_true] at h
      rcases List.mem_cons.mp hx with hh | hh
      · subst hh; exact ⟨h.1.1, h.1.2⟩
      · exact ih h.2 hh

/-- Primitive values translate to extension-free wire values. -/
theorem EValue.primitive_extFree (v : EValue) (hp : v.primitive = true) :
    v.toM.extFree = true := by
  induction v using EValue.indOnE with
  | hext code payload => rw [EValue.primitive] at hp; exact absurd hp (by simp)
  | hintern w a b v ih => rw [EValue.primitive] at hp; exact absurd hp (by simp)
  | hobj o t d ih => rw [EValue.primitive] at hp; exact absurd hp (by simp)
  | harr xs ih =>
      rw [EValue.primitive] at hp
      rw [EValue.toM, MValue.extFree]
      induction xs with
      | nil => rfl
      | cons y ys ihl =>
          rw [EValue.primitiveList, Bool.and_eq_true] at hp
          rw [EValue.toMList, MValue.extFreeList, Bool.and_eq_true]
          exact ⟨ih y (List.mem_cons_self y ys) hp.1,
            ihl (fun z hz => ih z (List.mem_cons_of_mem y hz)) hp.2⟩
  | hmap kvs ih =>
      rw [EValue.primitive] at hp
      rw [EValue.toM, MValue.extFree]
      induction kvs with
      | nil => rfl
      | cons y ys ihl =>
          obtain ⟨a, b⟩ := y
          rw [EValue.primitiveKV, Bool.and_eq_true, Bool.and_eq_true] at hp
          rw [EValue.toMKV, MValue.extFreeKV, Bool.and_eq_true, Bool.and_eq_true]
          exact ⟨⟨(ih (a, b) (List.mem_cons_self _ _)).1 hp.1.1,
            (ih (a, b) (List.mem_cons_self _ _)).2 hp.1.2⟩,
            ihl (fun z hz => ih z (List.mem_cons_of_mem _ hz)) hp.2⟩
  | hnil => rfl
  | hbool b => rfl
  | hint n => rfl
  | hfloat bits => rfl
  | hstr s => rfl
  | hbin b => rfl

theorem epackList_primitive (c : Codec) (xs : List EValue)
    (H : ∀ x ∈ xs, ∀ st, epack c x st = (.ok (pack x.toM), st)) :
    ∀ st, epackList c xs st = (.ok (packList (EValue.toMList xs)), st) := by
  induction xs with
  | nil => intro st; rfl
  | cons y ys ih =>
      intro st
      rw [epackList, H y (List.mem_cons_self y ys) st]
      dsimp only
      rw [ih (fun z hz => H z (List.mem_cons_of_mem y hz)) st]
      dsimp only
      rw [EValue.toMList, packList]

theorem epackKV_primitive (c : Codec) (kvs : List (EValue × EValue))
    (H : ∀ kv ∈ kvs, (∀ st, epack c kv.1 st = (.ok (pack kv.1.toM), st)) ∧
      (∀ st, epack c kv.2 st = (.ok (pack kv.2.toM), st))) :
    ∀ st, epackKV c kvs st = (.ok (packKV (EValue.toMKV kvs)), st) := by
  induction kvs with
  | nil => intro st; rfl
  | cons y ys ih =>
      obtain ⟨a, b⟩ := y
      intro st
      rw [epackKV, (H (a, b) (List.mem_cons_self _ _)).1 st]
      dsimp only
      rw [(H (a, b) (List.mem_cons_self _ _)).2 st]
      dsimp only
      rw [ih (fun z hz => H z (List.mem_cons_of_mem _ hz)) st]
      dsimp only
      rw [EValue.toMKV, packKV]

/-- A primitive value is packed natively: the default-encoder hook is never
invoked and the intern context is untouched. -/
theorem epack_primitive (c : Codec) (v : EValue) (hp : v.primitive = true)
    (hw : v.toM.wf = true) :
    ∀ st, epack c v st = (.ok (pack v.toM), st) := by
  induction v using EValue.indOnE with
  | hext code payload => rw [EValue.primitive] at hp; exact absurd hp (by simp)
  | hintern w a b v ih => rw [EValue.primitive] at hp; exact absurd hp (by simp)
  | hobj o t d ih => rw [EValue.primitive] at hp; exact absurd hp (by simp)
  | hnil => intro st; rfl
  | hbool b => intro st; rfl
  | hint n =>
      intro st
      rw [EValue.toM] at hw ⊢
      rw [MValue.wf, Bool.and_eq_true, decide_eq_true_eq, decide_eq_true_eq] at hw
      rw [epack, if_pos hw]
      rfl
  | hfloat bits => intro st; rfl
  | hstr s =>
      intro st
      rw [EValue.toM] at hw ⊢
      rw [MValue.wf, Bool.and_eq_true, decide_eq_true_eq] at hw
      rw [epack, if_pos hw.1]
      rfl
  | hbin b =>
      intro st
      rw [EValue.toM] at hw ⊢
      rw [MValue.wf, Bool.and_eq_true, decide_eq_true_eq] at hw
      rw [epack, if_pos hw.1]
      rfl
  | harr xs ih =>
      intro st
      rw [EValue.primitive] at hp
      rw [EValue.toM] at hw ⊢
      rw [MValue.wf, Bool.and_eq_true, decide_eq_true_eq] at hw
      have hlen : xs.length < 2 ^ 32 := by
        rw [← EValue.toMList_length]; exact hw.1
      have hlist := epackList_primitive c xs
        (fun x hx => ih x hx (EValue.primitiveList_mem x xs hp hx)
          (EValue.wfList_toM_mem x xs hw.2 hx)) st
      rw [epack, if_pos hlen, hlist]
      dsimp only
      have hpk : pack (.arr (EValue.toMList xs)) =
          packArrayHeader (EValue.toMList xs).length ++ packList (EValue.toMList xs) :=
        rfl
      rw [hpk, EValue.toMList_length]
  | hmap kvs ih =>
      intro st
      rw [EValue.primitive] at hp
      rw [EValue.toM] at hw ⊢
      rw [MValue.wf, Bool.and_eq_true, decide_eq_true_eq] at hw
      have hlen : kvs.length < 2 ^ 32 := by
        rw [← EValue.toMKV_length]; exact hw.1
      have hlist := epackKV_primitive c kvs
        (fun kv hkv =>
          have hpq := EValue.primitiveKV_mem kv kvs hp hkv
          have hwq := EValue.wfKV_toM_mem kv kvs hw.2 hkv
          ⟨ih kv hkv |>.1 hpq.1 hwq.1, ih kv hkv |>.2 hpq.2 hwq.2⟩) st
      rw [epack, if_pos hlen, hlist]
      dsimp only
      have hpk : pack (.map (EValue.toMKV kvs)) =
          packMapHeader (EValue.toMKV kvs).length ++ packKV (EValue.toMKV kvs) :=
        rfl
      rw [hpk, EValue.toMKV_length]

/-! ## Reference resolution under an active table -/

theorem extHook_ref (c : Codec)
    (p : DCtx → List Nat → (Except DErr (MValue × List Nat)) × DCtx)
    (munp : List Nat → Option (MValue × List Nat)) (es : List MValue)
    (payload : List Nat) :
    extHook c p munp ⟨true, some es⟩ 6 payload
      = (handleInternRef munp ⟨true, some es⟩ payload, ⟨true, some es⟩) := rfl

theorem extHook_frame (c : Codec)
    (p : DCtx → List Nat → (Except DErr (MValue × List Nat)) × DCtx)
    (munp : List Nat → Option (MValue × List Nat)) (payload : List Nat) :
    extHook c p munp DCtx.idle 6 payload
      = decodeInternTable p munp DCtx.idle payload := rfl

theorem extHook_custom (c : Codec)
    (p : DCtx → List Nat → (Except DErr (MValue × List Nat)) × DCtx)
    (munp : List Nat → Option (MValue × List Nat)) (st : DCtx)
    (payload : List Nat) :
    extHook c p munp st 8 payload = (customDecode c munp payload, st) := rfl

theorem extHook_other (c : Codec)
    (p : DCtx → List Nat → (Except DErr (MValue × List Nat)) × DCtx)
    (munp : List Nat → Option (MValue × List Nat)) (st : DCtx) (code : Int)
    (payload : List Nat) (h6 : code ≠ 6) (h8 : code ≠ 8) :
    extHook c p munp st code payload = (.ok (.ext code payload), st) := by
  rw [extHook, if_neg h6, if_neg h8]

theorem handleInternRef_packInt (munp : List Nat → Option (MValue × List Nat))
    (es : List MValue) (k : Nat)
    (hm : munp (packInt (k : Int)) = some (.int (k : Int), []))
    (hk : k < es.length) :
    handleInternRef munp ⟨true, some es⟩ (packInt (k : Int))
      = .ok (es.getD k .nil) := by
  rw [handleInternRef, hm]
  show (if (es.length : Int) ≤ (k : Int) then Except.error DErr.forwardReference
      else if (k : Int) < 0 then Except.error DErr.indexError
      else Except.ok (es.getD ((k : Int)).toNat MValue.nil))
    = Except.ok (es.getD k MValue.nil)
  rw [if_neg (by omega), if_neg (by omega)]
  simp

theorem applyHook_refResolve (c : Codec)
    (p : DCtx → List Nat → (Except DErr (MValue × List Nat)) × DCtx)
    (fuel : Nat) (es : List MValue) (hlen : es.length < 2 ^ 32) (hfuel : 1 ≤ fuel)
    (v : MValue) (h : v.refBelow es.length = true) :
    applyHook (extHook c p (munpack fuel)) ⟨true, some es⟩ v
      = (.ok (refResolve es v), ⟨true, some es⟩) := by
  induction v using MValue.indOnM with
  | hext code payload =>
      rw [MValue.refBelow, Bool.and_eq_true, decide_eq_true_eq] at h
      obtain ⟨hc, h2⟩ := h
      subst hc
      cases hk : refIndex payload with
      | none => rw [hk] at h2; exact absurd h2 (by simp)
      | some k =>
          rw [hk] at h2
          rw [Bool.and_eq_true, decide_eq_true_eq, decide_eq_true_eq] at h2
          obtain ⟨hklt, hpay⟩ := h2
          subst hpay
          rw [applyHook, extHook_ref]
          have hwf : (MValue.int (k : Int)).wf = true := by
            rw [MValue.wf, Bool.and_eq_true, decide_eq_true_eq, decide_eq_true_eq]
            constructor
            · omega
            · omega
          have hm : munpack fuel (packInt (k : Int)) = some (.int (k : Int), []) := by
            have hh := munpack_pack fuel (.int (k : Int)) [] hwf
              (by simp [MValue.size]; omega)
            rwa [List.append_nil] at hh
          rw [handleInternRef_packInt (munpack fuel) es k hm hklt]
          rw [refResolve, hk]
  | harr xs ih =>
      rw [MValue.refBelow] at h
      rw [applyHook]
      have hl : applyHookList (extHook c p (munpack fuel)) ⟨true, some es⟩ xs
          = (.ok (refResolveList es xs), ⟨true, some es⟩) := by
        induction xs with
        | nil => rfl
        | cons y ys ihl =>
            rw [MValue.refBelowList, Bool.and_eq_true] at h
            rw [applyHookList, ih y (List.mem_cons_self y ys) h.1]
            dsimp only
            rw [ihl (fun z hz => ih z (List.mem_cons_of_mem y hz)) h.2]
            rfl
      rw [hl]
      rfl
  | hmap kvs ih =>
      rw [MValue.refBelow] at h
      rw [applyHook]
      have hl : applyHookKV (extHook c p (munpack fuel)) ⟨true, some es⟩ kvs
          = (.ok (refResolveKV es kvs), ⟨true, some es⟩) := by
        induction kvs with
        | nil => rfl
        | cons y ys ihl =>
            obtain ⟨a, b⟩ := y
            rw [MValue.refBelowKV, Bool.and_eq_true, Bool.and_eq_true] at h
            rw [applyHookKV, (ih (a, b) (List.mem_cons_self _ _)).1 h.1.1]
            dsimp only
            rw [(ih (a, b) (List.mem_cons_self _ _)).2 h.1.2]
            dsimp only
            rw [ihl (fun z hz => ih z (List.mem_cons_of_mem _ hz)) h.2]
            rfl
      rw [hl]
      rfl
  | hnil => rfl
  | hbool b => rfl
  | hint n => rfl
  | hfloat bits => rfl
  | hstr s => rfl
  | hbin b => rfl

/-- A hooked parse of a packed reference-bearing value under an active table
resolves the references against the table and leaves the context unchanged. -/
theorem hunpack_refBelow (c : Codec) (fuel : Nat) (es : List MValue) (v : MValue)
    (rest : List Nat) (hlen : es.length < 2 ^ 32) (hwf : v.wf = true)
    (href : v.refBelow es.length = true) (hs : v.size ≤ fuel) (hf2 : 2 ≤ fuel) :
    hunpack c fuel ⟨true, some es⟩ (pack v ++ rest)
      = (.ok (refResolve es v, rest), ⟨true, some es⟩) := by
  cases fuel with
  | zero => omega
  | succ f =>
      have h1 : munpack (f + 1) (pack v ++ rest) = some (v, rest) :=
        munpack_pack (f + 1) v rest hwf hs
      rw [hunpack, h1]
      show (match applyHook (extHook c (hunpack c f) (munpack f)) ⟨true, some es⟩ v with
        | (.ok w, st1) => (.ok (w, rest), st1)
        | (.error e, st1) => (.error e, st1))
        = ((.ok (refResolve es v, rest) : Except DErr _), ⟨true, some es⟩)
      rw [applyHook_refResolve c (hunpack c f) f es hlen (by omega) v href]

/-! ## Frame decoding -/

theorem packExtHeader_length_two (code : Int) (n : Nat) :
    2 ≤ (packExtHeader code n).length := by
  rw [packExtHeader]
  split_ifs <;> simp [beBytes_length]

/-- Loading the entries array: each packed extension-free entry decodes to
itself and is appended to the table, in array order. -/
theorem loadEntries_extFree (c : Codec) (fuel : Nat) (es acc : List MValue)
    (hwf : MValue.wfList es = true) (hfree : MValue.extFreeList es = true)
    (hs : MValue.sizeList es ≤ fuel) :
    loadEntries (hunpack c fuel) es.length ⟨true, some acc⟩ (packList es)
      = (.ok (), ⟨true, some (acc ++ es)⟩) := by
  induction es generalizing acc with
  | nil =>
      rw [packList, List.length_nil, loadEntries]
      simp
  | cons y ys ih =>
      rw [MValue.wfList, Bool.and_eq_true] at hwf
      rw [MValue.extFreeList, Bool.and_eq_true] at hfree
      rw [MValue.sizeList] at hs
      have h1 := hunpack_extFree c fuel ⟨true, some acc⟩ y (packList ys)
        hfree.1 hwf.1 (by have := MValue.size_pos y; omega)
      rw [packList, List.length_cons, loadEntries, h1]
      show loadEntries (hunpack c fuel) ys.length ⟨true, some (acc ++ [y])⟩
          (packList ys) = (.ok (), ⟨true, some (acc ++ y :: ys)⟩)
      rw [ih (acc ++ [y]) hwf.2 hfree.2 (by omega)]
      simp

/-- `decode_intern_table` on a well-formed frame payload with extension-free
entries and a reference-bearing body: the entries are materialized in array
order, the body is decoded with its references resolved against them, and the
table is torn down. -/
theorem decodeInternTable_frame (c : Codec) (fuel : Nat) (es : List MValue)
    (body : MValue) (hlen : es.length < 2 ^ 32)
    (hwf : MValue.wfList es = true) (hfree : MValue.extFreeList es = true)
    (hbwf : body.wf = true) (hbref : body.refBelow es.length = true)
    (hfuel : (pack (.arr es)).length + (pack body).length + 1 ≤ fuel) :
    decodeInternTable (hunpack c fuel) (munpack fuel) DCtx.idle
      (pack (.arr es) ++ pack body) = (.ok (refResolve es body), DCtx.idle) := by
  have hwfa : (MValue.arr es).wf = true := by
    rw [MValue.wf, Bool.and_eq_true, decide_eq_true_eq]
    exact ⟨hlen, hwf⟩
  have hsize_es := size_le_pack_length (.arr es)
  have hsize_b := size_le_pack_length body
  have hbody_pos : 1 ≤ (pack body).length := by
    have := MValue.size_pos body
    omega
  have h1 : munpack fuel (pack (.arr es) ++ pack body) = some (.arr es, pack body) :=
    munpack_pack fuel (.arr es) (pack body) hwfa (by omega)
  rw [decodeInternTable, h1]
  dsimp only
  rw [show (pack (.arr es) ++ pack body).length - (pack body).length
      = (pack (.arr es)).length by simp [List.length_append]]
  rw [List.take_left]
  rw [if_neg (by simp [DCtx.idle])]
  have hpa : pack (.arr es) = packArrayHeader es.length ++ packList es := rfl
  rw [hpa, readArrayHeader_packArrayHeader es.length (packList es) hlen]
  dsimp only
  have hsl : MValue.sizeList es ≤ fuel := by
    have : MValue.sizeList es ≤ (packList es).length :=
      sizeList_le_packList_length es (fun x _ => size_le_pack_length x)
    have : (packList es).length ≤ (pack (.arr es)).length := by
      rw [hpa, List.length_append]
      omega
    omega
  have h2 := loadEntries_extFree c fuel es [] hwf hfree hsl
  rw [List.nil_append] at h2
  rw [h2]
  dsimp only
  have h3 := hunpack_refBelow c fuel es body [] hlen hbwf hbref (by omega) (by omega)
  rw [List.append_nil] at h3
  rw [h3]
  rfl

theorem loads_of_hunpack (c : Codec) (data : List Nat) (st : DCtx) (v : MValue)
    (st1 : DCtx) (h : hunpack c (data.length + 1) st data = (.ok (v, []), st1)) :
    c.loads data st = (.ok v, st1) := by
  rw [Codec.loads, h]
  rfl

theorem hunpack_frame (c : Codec) (fuel : Nat) (es : List MValue) (body : MValue)
    (hlen : es.length < 2 ^ 32) (hwf : MValue.wfList es = true)
    (hfree : MValue.extFreeList es = true) (hbwf : body.wf = true)
    (hbref : body.refBelow es.length = true)
    (hplen : (pack (.arr es) ++ pack body).length < 2 ^ 32)
    (hfuel : (pack (.arr es)).length + (pack body).length + 1 ≤ fuel) :
    hunpack c (fuel + 1) DCtx.idle (pack (.ext 6 (pack (.arr es) ++ pack body)))
      = (.ok (refResolve es body, []), DCtx.idle) := by
  have hm : munpack (fuel + 1) (pack (.ext 6 (pack (.arr es) ++ pack body)))
      = some (.ext 6 (pack (.arr es) ++ pack body), []) := by
    have h0 := munpackGo_ext (munpack fuel) 6 (pack (.arr es) ++ pack body) []
      (by norm_num) (by norm_num) hplen
    rw [List.append_nil] at h0
    rw [munpack]
    exact h0
  rw [hunpack, hm]
  show (match applyHook (extHook c (hunpack c fuel) (munpack fuel)) DCtx.idle
      (.ext 6 (pack (.arr es) ++ pack body)) with
    | (.ok w, st1) => ((.ok (w, ([] : List Nat)) : Except DErr (MValue × List Nat)), st1)
    | (.error e, st1) => ((.error e : Except DErr (MValue × List Nat)), st1))
    = ((.ok (refResolve es body, []) : Except DErr (MValue × List Nat)), DCtx.idle)
  rw [applyHook, extHook_frame,
    decodeInternTable_frame c fuel es body hlen hwf hfree hbwf hbref hfuel]

/-- Decoding a well-formed frame-form message: a fresh table is started, the
entries are materialized in array order, the body is returned with every
reference `ref k` replaced by entry `k`, and the table is torn down. -/
theorem loads_frame (c : Codec) (es : List MValue) (body : MValue)
    (hlen : es.length < 2 ^ 32) (hwf : MValue.wfList es = true)
    (hfree : MValue.extFreeList es = true) (hbwf : body.wf = true)
    (hbref : body.refBelow es.length = true)
    (hplen : (pack (.arr es) ++ pack body).length < 2 ^ 32) :
    c.loads (pack (.ext 6 (pack (.arr es) ++ pack body))) DCtx.idle
      = (.ok (refResolve es body), DCtx.idle) := by
  apply loads_of_hunpack
  have hlen2 := packExtHeader_length_two 6 (pack (.arr es) ++ pack body).length
  have hdl : (pack (.ext 6 (pack (.arr es) ++ pack body))).length
      = (packExtHeader 6 (pack (.arr es) ++ pack body).length).length
        + ((pack (.arr es)).length + (pack body).length) := by
    show (packExtHeader 6 (pack (.arr es) ++ pack body).length
      ++ (pack (.arr es) ++ pack body)).length = _
    simp [List.length_append]
  rw [show (pack (.ext 6 (pack (.arr es) ++ pack body))).length
      = ((pack (.ext 6 (pack (.arr es) ++ pack body))).length - 1) + 1 by omega]
  exact hunpack_frame c _ es body hlen hwf hfree hbwf hbref hplen (by omega)

/-! ## Helpers for the claim theorems, and the concrete scenario messages -/

/-- A wire-level intern reference to entry `k`. -/
def refExt (k : Nat) : MValue := .ext 6 (packInt (k : Int))

def strHello : List Nat := [104, 101, 108, 108, 111]
def strWorld : List Nat := [119, 111, 114, 108, 100]
def strRepeated : List Nat := [114, 101, 112, 101, 97, 116, 101, 100]

/-- The S4 message: entries `[[ref 1, ref 2], "hello", "world"]`, body `ref 0`. -/
def s4msg : List Nat :=
  pack (.ext 6 (pack (.arr [.arr [refExt 1, refExt 2], .str strHello,
    .str strWorld]) ++ pack (refExt 0)))

/-- The S6 message: a fully-formed inner frame as the first outer entry. -/
def s6msg : List Nat :=
  pack (.ext 6 (pack (.arr [.ext 6 (pack (.arr [.str [105]]) ++ pack (refExt 0)),
    .str [111]]) ++ pack (refExt 0)))

/-- The S5 object graph: five `Intern` wrappers (identities `w1..w5`) of one
object `x` whose identity is `a`, in a dict `{a:·, b:·, c:·, d:[·,·]}`. -/
def s5map (w1 w2 w3 w4 w5 a : Nat) (x : EValue) : EValue :=
  .map [(.str [97], .intern w1 a true x),
        (.str [98], .intern w2 a true x),
        (.str [99], .intern w3 a true x),
        (.str [100], .arr [.intern w4 a true x, .intern w5 a true x])]

/-- The decoded body of the S5 wire message: same dict shape with references
to entry 0. -/
def s5bodyM : MValue :=
  .map [(.str [97], refExt 0), (.str [98], refExt 0), (.str [99], refExt 0),
        (.str [100], .arr [refExt 0, refExt 0])]

theorem dumps_inactive (c : Codec) (obj : EValue) (st0 : InternContextE)
    (h : st0.active = false) (bs : List Nat) (st1 : InternContextE)
    (hep : epack c obj st0 = (.ok bs, st1)) (h1 : st1.active = false) :
    c.dumps obj st0 = (.ok bs, st1) := by
  rw [Codec.dumps, if_neg (by simp [h]), hep]
  show st1.maybe_wrap bs = (.ok bs, st1)
  rw [InternContextE.maybe_wrap]
  rw [if_neg (by simp [h1]), if_neg (by simp [h1])]

theorem hunpack_foreign (c : Codec) (fuel : Nat) (code : Int) (payload : List Nat)
    (h0 : 0 ≤ code) (h127 : code ≤ 127) (h6 : code ≠ 6) (h8 : code ≠ 8)
    (hlen : payload.length < 2 ^ 32) :
    hunpack c (fuel + 1) DCtx.idle (pack (.ext code payload))
      = (.ok (.ext code payload, []), DCtx.idle) := by
  have hm : munpack (fuel + 1) (pack (.ext code payload))
      = some (.ext code payload, []) := by
    have hgo := munpackGo_ext (munpack fuel) code payload [] h0 h127 hlen
    rw [List.append_nil] at hgo
    rw [munpack]
    exact hgo
  rw [hunpack, hm]
  show (match applyHook (extHook c (hunpack c fuel) (munpack fuel)) DCtx.idle
      (.ext code payload) with
    | (.ok w, st1) => ((.ok (w, ([] : List Nat)) : Except DErr (MValue × List Nat)), st1)
    | (.error e, st1) => ((.error e : Except DErr (MValue × List Nat)), st1))
    = ((.ok (.ext code payload, []) : Except DErr (MValue × List Nat)), DCtx.idle)
  rw [applyHook, extHook_other c _ _ _ code payload h6 h8]

theorem handleInternRef_forward (munp : List Nat → Option (MValue × List Nat))
    (es : List MValue) (k : Nat)
    (hm : munp (packInt (k : Int)) = some (.int (k : Int), []))
    (hk : es.length ≤ k) :
    handleInternRef munp ⟨true, some es⟩ (packInt (k : Int))
      = .error .forwardReference := by
  rw [handleInternRef, hm]
  show (if (es.length : Int) ≤ (k : Int) then Except.error DErr.forwardReference
      else if (k : Int) < 0 then Except.error DErr.indexError
      else Except.ok (es.getD ((k : Int)).toNat MValue.nil))
    = Except.error DErr.forwardReference
  rw [if_pos (by omega)]

theorem handleInternRef_extra (munp : List Nat → Option (MValue × List Nat))
    (st : DCtx) (v : MValue) (extra : List Nat)
    (hm : munp (pack v ++ extra) = some (v, extra)) (hextra : extra ≠ []) :
    handleInternRef munp st (pack v ++ extra) = .error .extraData := by
  rw [handleInternRef, hm]
  show (if extra ≠ [] then Except.error DErr.extraData else _)
    = Except.error DErr.extraData
  rw [if_pos hextra]

/-! ## Type-map exactness (dispatch is keyed on the concrete type) -/

theorem alookup_aset {κ α : Type} [DecidableEq κ] (k k2 : κ) (v : α)
    (l : List (κ × α)) :
    alookup k (aset k2 v l) = if k = k2 then some v else alookup k l := by
  induction l with
  | nil =>
      by_cases hk : k = k2
      · rw [if_pos hk, aset, alookup, if_pos hk]
      · rw [if_neg hk, aset, alookup, alookup, if_neg hk, alookup]
  | cons p ps ih =>
      obtain ⟨k3, v3⟩ := p
      rw [aset]
      by_cases h : k2 = k3
      · rw [if_pos h, alookup]
        by_cases hk : k = k2
        · rw [if_pos hk, if_pos hk]
        · rw [if_neg hk, if_neg hk, alookup, if_neg (by rw [← h]; exact hk)]
      · rw [if_neg h, alookup]
        by_cases hk : k = k3
        · rw [if_pos hk, if_neg (fun hh => h (hh.symm.trans hk)), alookup, if_pos hk]
        · rw [if_neg hk, ih]
          by_cases hk2 : k = k2
          · rw [if_pos hk2, if_pos hk2]
          · rw [if_neg hk2, if_neg hk2, alookup, if_neg hk]

theorem foldl_preserve {α β : Type} (P : β → Prop) (f : β → α → β) (l : List α)
    (b : β) (hb : P b) (hf : ∀ b2 a, P b2 → P (f b2 a)) : P (l.foldl f b) := by
  induction l generalizing b with
  | nil => exact hb
  | cons x xs ih => exact ih (f b x) (hf b x hb)

/-- Every type-map binding maps a Python type to a codec registered for
exactly that type: dispatch can only select an entry whose `py_type` is the
value's concrete type. -/
theorem buildTypeMap_pyType (nss : List (List Nat × StoredNs)) (k : Nat)
    (e : List Nat × Nat × TypedCodec) (h : alookup k (buildTypeMap nss) = some e) :
    e.2.2.pyType = k := by
  have H := foldl_preserve
    (fun acc => ∀ k2 e2, alookup k2 acc = some e2 → e2.2.2.pyType = k2)
    (fun acc p =>
      match p.2.ns with
      | .catchAll _ => acc
      | .typed types =>
          types.foldl (fun acc2 q => aset q.2.pyType (p.1, q.1, q.2) acc2) acc)
    nss []
    (by intro k2 e2 h2; rw [alookup] at h2; cases h2)
    (by
      intro acc p hacc
      show (fun acc2 => ∀ k2 e2, alookup k2 acc2 = some e2 → e2.2.2.pyType = k2)
        (match p.2.ns with
         | .catchAll _ => acc
         | .typed types =>
             types.foldl (fun acc2 q => aset q.2.pyType (p.1, q.1, q.2) acc2) acc)
      cases hns : p.2.ns with
      | catchAll ca => exact hacc
      | typed types =>
          exact foldl_preserve
            (fun acc2 => ∀ k2 e2, alookup k2 acc2 = some e2 → e2.2.2.pyType = k2)
            (fun acc2 q => aset q.2.pyType (p.1, q.1, q.2) acc2) types acc hacc
            (fun acc2 q hacc2 => by
              intro k2 e2 h2
              rw [alookup_aset] at h2
              by_cases hk : k2 = q.2.pyType
              · rw [if_pos hk] at h2
                cases h2
                exact hk.symm
              · rw [if_neg hk] at h2
                exact hacc2 k2 e2 h2))
  exact H k e h

/-! ## Context teardown on the decode side -/

theorem decodeInternTable_snd_idle
    (p : DCtx → List Nat → (Except DErr (MValue × List Nat)) × DCtx)
    (munp : List Nat → Option (MValue × List Nat)) (payload : List Nat) :
    (decodeInternTable p munp DCtx.idle payload).2 = DCtx.idle := by
  rw [decodeInternTable]
  repeat' split
  all_goals try rfl
  all_goals dsimp only
  all_goals repeat' split
  all_goals rfl

theorem extHook_snd_idle (c : Codec)
    (p : DCtx → List Nat → (Except DErr (MValue × List Nat)) × DCtx)
    (munp : List Nat → Option (MValue × List Nat)) (code : Int)
    (payload : List Nat) :
    (extHook c p munp DCtx.idle code payload).2 = DCtx.idle := by
  rw [extHook]
  split_ifs
  · rfl
  · exact decodeInternTable_snd_idle p munp payload
  · rfl
  · rfl

theorem applyHook_snd_idle
    (hook : DCtx → Int → List Nat → (Except DErr MValue) × DCtx)
    (hh : ∀ code payload, (hook DCtx.idle code payload).2 = DCtx.idle)
    (v : MValue) : (applyHook hook DCtx.idle v).2 = DCtx.idle := by
  induction v using MValue.indOnM with
  | hext code payload => rw [applyHook]; exact hh code payload
  | harr xs ih =>
      rw [applyHook]
      have hl : (applyHookList hook DCtx.idle xs).2 = DCtx.idle := by
        induction xs with
        | nil => rfl
        | cons y ys ihl =>
            rw [applyHookList]
            have hy := ih y (List.mem_cons_self y ys)
            cases hy2 : applyHook hook DCtx.idle y with
            | mk fst snd =>
                rw [hy2] at hy
                dsimp only at hy
                subst hy
                cases fst with
                | error e => rfl
                | ok w =>
                    dsimp only
                    have ht := ihl (fun z hz => ih z (List.mem_cons_of_mem y hz))
                    cases hys : applyHookList hook DCtx.idle ys with
                    | mk fst2 snd2 =>
                        rw [hys] at ht
                        dsimp only at ht
                        subst ht
                        cases fst2 <;> rfl
      cases hxs : applyHookList hook DCtx.idle xs with
      | mk fst snd =>
          rw [hxs] at hl
          dsimp only at hl
          subst hl
          cases fst <;> rfl
  | hmap kvs ih =>
      rw [applyHook]
      have hl : (applyHookKV hook DCtx.idle kvs).2 = DCtx.idle := by
        induction kvs with
        | nil => rfl
        | cons y ys ihl =>
            obtain ⟨a, b⟩ := y
            rw [applyHookKV]
            have ha := (ih (a, b) (List.mem_cons_self _ _)).1
            cases ha2 : applyHook hook DCtx.idle a with
            | mk fst snd =>
                rw [ha2] at ha
                dsimp only at ha
                subst ha
                cases fst with
                | error e => rfl
                | ok k2 =>
                    dsimp only
                    have hb := (ih (a, b) (List.mem_cons_self _ _)).2
                    cases hb2 : applyHook hook DCtx.idle b with
                    | mk fstb sndb =>
                        rw [hb2] at hb
                        dsimp only at hb
                        subst hb
                        cases fstb with
                        | error e => rfl
                        | ok v2 =>
                            dsimp only
                            have ht := ihl (fun z hz => ih z (List.mem_cons_of_mem _ hz))
                            cases hys : applyHookKV hook DCtx.idle ys with
                            | mk fst2 snd2 =>
                                rw [hys] at ht
                                dsimp only at ht
                                subst ht
                                cases fst2 <;> rfl
      cases hxs : applyHookKV hook DCtx.idle kvs with
      | mk fst snd =>
          rw [hxs] at hl
          dsimp only at hl
          subst hl
          cases fst <;> rfl
  | hnil => rfl
  | hbool b => rfl
  | hint n => rfl
  | hfloat bits => rfl
  | hstr s => rfl
  | hbin b => rfl

theorem hunpack_snd_idle (c : Codec) (fuel : Nat) (bs : List Nat) :
    (hunpack c fuel DCtx.idle bs).2 = DCtx.idle := by
  cases fuel with
  | zero => rfl
  | succ f =>
      rw [hunpack]
      cases hm : munpack (f + 1) bs with
      | none => rfl
      | some p =>
          obtain ⟨v, rest⟩ := p
          dsimp only
          have hap := applyHook_snd_idle (extHook c (hunpack c f) (munpack f))
            (fun code payload => extHook_snd_idle c (hunpack c f) (munpack f)
              code payload) v
          cases ha2 : applyHook (extHook c (hunpack c f) (munpack f)) DCtx.idle v with
          | mk fst snd =>
              rw [ha2] at hap
              dsimp only at hap
              subst hap
              cases fst <;> rfl


/-- A dedup hit: when the intern table is active and the address is already in
`by_id`, `InternContext.intern` returns the existing reference and leaves the
state unchanged (`intern_table.py` lines 125-131). -/
theorem epack_intern_hit (c : Codec) (w a i : Nat) (x : EValue) (t : InternTableE)
    (hfind : alookup a t.by_id = some i) :
    epack c (.intern w a true x) ⟨true, some t⟩
      = (.ok (pack (.ext 6 (packInt (i : Int)))), ⟨true, some t⟩) := by
  simp only [epack, InternContextE.ensure_table, InternTableE.findIn, if_true,
    Option.getD, hfind]

/-- A first-time intern from the idle context: `ensure_table` starts a fresh
table, the lookup misses, the blob is appended at index 0 and the address is
recorded in `by_id` (`intern_table.py` lines 133-152). -/
theorem epack_intern_first (c : Codec) (w a : Nat) (x : EValue)
    (hp : x.primitive = true) (hw : x.toM.wf = true) :
    epack c (.intern w a true x) InternContextE.idle
      = (.ok (pack (.ext 6 (packInt (0 : Int)))),
         ⟨true, some ⟨[pack x.toM], [x], [(a, 0)]⟩⟩) := by
  have hx := epack_primitive c x hp hw ⟨true, some ⟨[], [], []⟩⟩
  simp only [epack, InternContextE.idle, InternContextE.ensure_table, InternTableE.findIn,
    Bool.false_eq_true, if_true, if_false, Option.getD, alookup, hx, aset, List.nil_append]
  rfl

end ToBytes

namespace ToBytes

theorem epack_str1 (c : Codec) (st : InternContextE) (ch : Nat) :
    epack c (.str [ch]) st = (.ok (packStrHeader 1 ++ [ch]), st) := by
  rw [epack, if_pos (by norm_num)]
  rfl

/-- Encoding the S5 dict from the idle context: the first `Intern` occurrence
interns the value at index 0 and the other four hit the identity index, so the
wrapped wire message's intern table is the one-entry array `[x.toM]`. -/
theorem dumps_s5 (c : Codec) (x : EValue) (hp : x.primitive = true)
    (hw : x.toM.wf = true)
    (hbig : (pack (.arr [x.toM]) ++ pack s5bodyM).length < 2 ^ 32) :
    c.dumps (s5map 1 2 3 4 5 42 x) InternContextE.idle
      = (.ok (pack (.ext 6 (pack (.arr [x.toM]) ++ pack s5bodyM))),
         InternContextE.idle) := by
  have hA := epack_intern_first c 1 42 x hp hw
  have hHit : ∀ w, epack c (.intern w 42 true x) ⟨true, some ⟨[pack x.toM], [x], [(42, 0)]⟩⟩
      = (.ok (pack (.ext 6 (packInt ((0 : Nat) : Int)))),
         ⟨true, some ⟨[pack x.toM], [x], [(42, 0)]⟩⟩) :=
    fun w => epack_intern_hit c w 42 0 x ⟨[pack x.toM], [x], [(42, 0)]⟩
      (by rw [alookup, if_pos rfl])
  rw [Codec.dumps]
  rw [if_neg (by simp [InternContextE.idle])]
  rw [s5map, epack, if_pos (by norm_num)]
  rw [epackKV, epack_str1]
  dsimp only
  rw [hA]
  dsimp only
  rw [epackKV, epack_str1]
  dsimp only
  rw [hHit 2]
  dsimp only
  rw [epackKV, epack_str1]
  dsimp only
  rw [hHit 3]
  dsimp only
  rw [epackKV, epack_str1]
  dsimp only
  rw [epack, if_pos (by norm_num), epackList, hHit 4]
  dsimp only
  rw [epackList, hHit 5]
  dsimp only
  rw [epackList]
  dsimp only
  rw [epackKV]
  dsimp only
  rw [InternContextE.maybe_wrap]
  dsimp only
  rw [if_pos rfl, if_pos (by norm_num)]
  split_ifs with h1 h2
  · rfl
  · exact absurd rfl h2
  · exact absurd hbig h1
  · exact absurd hbig h1

/-- `maybe_wrap_with_table` always hands back an inactive context: its
`finally` block ends the table when one is active, and an inactive context is
returned as it was. -/
theorem maybe_wrap_snd_inactive (st : InternContextE) (body : List Nat) :
    ((st.maybe_wrap body).2).active = false := by
  rw [InternContextE.maybe_wrap]
  dsimp only
  by_cases h : st.active = true
  · rw [if_pos h]
    rfl
  · rw [if_neg h]
    simp at h
    exact h

/-- A packed extension-free well-formed value decodes to itself. -/
theorem loads_primitive (c : Codec) (v : MValue) (hfree : v.extFree = true)
    (hw : v.wf = true) :
    c.loads (pack v) DCtx.idle = (.ok v, DCtx.idle) := by
  apply loads_of_hunpack
  have h := hunpack_extFree c ((pack v).length + 1) DCtx.idle v []
    hfree hw (by have := size_le_pack_length v; omega)
  rw [List.append_nil] at h
  exact h

/-! ## The claims -/

/-- Claim C1 (confirmed): a reference-form payload decoded while a table with
`es.length` entries is active fails with `ForwardReference` whenever the index
`k` is at or past the entry count; and the concrete S4 frame (entries
`[[ref 1, ref 2], "hello", "world"]`, body `ref 0`) fails with
`ForwardReference`, because entry 0 is materialized before entries 1 and 2
exist. -/
theorem c1_forward_reference :
    (∀ (munp : List Nat → Option (MValue × List Nat)) (es : List MValue) (k : Nat),
        munp (packInt (k : Int)) = some (.int (k : Int), []) → es.length ≤ k →
        handleInternRef munp ⟨true, some es⟩ (packInt (k : Int))
          = .error .forwardReference)
    ∧ Codec.loads ⟨[]⟩ s4msg DCtx.idle = (.error .forwardReference, DCtx.idle) :=
  ⟨fun munp es k hm hk => handleInternRef_forward munp es k hm hk, by rfl⟩

/-- Claim C2 (confirmed): encoding the S5 dict — five `Intern` wrappers of the
one object `x` (same address 42), by-identity mode — produces the frame-form
wire message whose intern-table part is the one-entry array `[x.toM]`, and
decoding that message reproduces the dict with `x`'s value at all five
occurrences. -/
theorem c2_intern_dedup (c : Codec) (x : EValue) (hp : x.primitive = true)
    (hw : x.toM.wf = true)
    (hbig : (pack (.arr [x.toM]) ++ pack s5bodyM).length < 2 ^ 32) :
    c.dumps (s5map 1 2 3 4 5 42 x) InternContextE.idle
      = (.ok (pack (.ext 6 (pack (.arr [x.toM]) ++ pack s5bodyM))),
         InternContextE.idle)
    ∧ c.loads (pack (.ext 6 (pack (.arr [x.toM]) ++ pack s5bodyM))) DCtx.idle
      = (.ok (.map [(.str [97], x.toM), (.str [98], x.toM), (.str [99], x.toM),
          (.str [100], .arr [x.toM, x.toM])]), DCtx.idle) := by
  refine ⟨dumps_s5 c x hp hw hbig, ?_⟩
  have h := loads_frame c [x.toM] s5bodyM (by norm_num)
    (by rw [MValue.wfList, hw]; rfl)
    (by rw [MValue.extFreeList, EValue.primitive_extFree x hp]; rfl)
    (by decide) (show MValue.refBelow 1 s5bodyM = true by decide) hbig
  have hres : refResolve [x.toM] s5bodyM
      = .map [(.str [97], x.toM), (.str [98], x.toM), (.str [99], x.toM),
          (.str [100], .arr [x.toM, x.toM])] := rfl
  rw [hres] at h
  exact h

theorem c2_intern_dedup_witness :
    Codec.dumps ⟨[]⟩ (s5map 1 2 3 4 5 42 (.str strRepeated)) InternContextE.idle
      = (.ok (pack (.ext 6 (pack (.arr [EValue.toM (.str strRepeated)])
          ++ pack s5bodyM))), InternContextE.idle)
    ∧ Codec.loads ⟨[]⟩ (pack (.ext 6 (pack (.arr [EValue.toM (.str strRepeated)])
        ++ pack s5bodyM))) DCtx.idle
      = (.ok (.map [(.str [97], EValue.toM (.str strRepeated)),
          (.str [98], EValue.toM (.str strRepeated)),
          (.str [99], EValue.toM (.str strRepeated)),
          (.str [100], .arr [EValue.toM (.str strRepeated),
            EValue.toM (.str strRepeated)])]), DCtx.idle) :=
  c2_intern_dedup ⟨[]⟩ (.str strRepeated) (by rfl) (by decide) (by decide)

/-- Claim C3 (confirmed): a MessagePack-primitive value (no `Intern` wrappers,
no user-class instances, no extension records; all lengths and integers in
wire range, per `wf`) round-trips: `dumps` succeeds without starting a table
and `loads` of the produced bytes returns the value. -/
theorem c3_primitive_roundtrip (c : Codec) (v : EValue) (hp : v.primitive = true)
    (hw : v.toM.wf = true) :
    ∃ bs, c.dumps v InternContextE.idle = (.ok bs, InternContextE.idle)
      ∧ c.loads bs DCtx.idle = (.ok v.toM, DCtx.idle) := by
  refine ⟨pack v.toM, ?_, ?_⟩
  · exact dumps_inactive c v InternContextE.idle rfl (pack v.toM) InternContextE.idle
      (epack_primitive c v hp hw InternContextE.idle) rfl
  · exact loads_primitive c v.toM (EValue.primitive_extFree v hp) hw

theorem c3_primitive_roundtrip_witness :
    ∃ bs, Codec.dumps ⟨[]⟩ (.arr [.int 5, .str [104], .map [(.str [107], .nil)]])
        InternContextE.idle = (.ok bs, InternContextE.idle)
      ∧ Codec.loads ⟨[]⟩ bs DCtx.idle
        = (.ok (EValue.toM (.arr [.int 5, .str [104], .map [(.str [107], .nil)]])),
           DCtx.idle) :=
  c3_primitive_roundtrip ⟨[]⟩ (.arr [.int 5, .str [104], .map [(.str [107], .nil)]])
    (by rfl) (by decide)

/-- Claim C4 counterexample: decoding the S6 nested frame fails with
`ExtraData`, not `NestedTable`.  The inner frame is met while the outer table
is active, so `_ext_hook` routes it to `handle_intern_reference`, whose
`msgpack.unpackb(data)` parses the inner entries array and then finds the
inner body bytes trailing — msgpack's `ExtraData`, raised before any
table-state check could fire (and tests/test_intern.py expects only a generic
`Exception` here). -/
theorem c4_nested_frame_counterexample :
    Codec.loads ⟨[]⟩ s6msg DCtx.idle = (.error .extraData, DCtx.idle)
    ∧ DErr.extraData ≠ DErr.nestedTable := ⟨by rfl, by decide⟩

/-- Claim C4 (corrected): a frame-form record met while a table is active is
parsed as a reference form; its payload (entries array followed by body) has
bytes trailing the first value, so the decode fails — but with msgpack's
`ExtraData`, not `NestedTable`.  First conjunct: any ext-6 payload with
trailing bytes fails `ExtraData` under an active table; second: the concrete
S6 nested frame. -/
theorem c4_nested_frame_amended :
    (∀ (munp : List Nat → Option (MValue × List Nat)) (st : DCtx) (v : MValue)
        (extra : List Nat),
        munp (pack v ++ extra) = some (v, extra) → extra ≠ [] →
        handleInternRef munp st (pack v ++ extra) = .error .extraData)
    ∧ Codec.loads ⟨[]⟩ s6msg DCtx.idle = (.error .extraData, DCtx.idle) :=
  ⟨fun munp st v extra hm he => handleInternRef_extra munp st v extra hm he, by rfl⟩

/-- Claim C5 (confirmed): general frame decode — fresh table, entries
materialized in array order, every body reference `ref k` replaced by entry
`k`, context torn down — plus the concrete S3 frame: entries
`["hello", "world"]`, body `[ref 0, ref 1, ref 0]` decodes to
`["hello", "world", "hello"]`. -/
theorem c5_frame_decode (c : Codec) (es : List MValue) (body : MValue)
    (hlen : es.length < 2 ^ 32) (hwf : MValue.wfList es = true)
    (hfree : MValue.extFreeList es = true) (hbwf : body.wf = true)
    (hbref : body.refBelow es.length = true)
    (hplen : (pack (.arr es) ++ pack body).length < 2 ^ 32) :
    c.loads (pack (.ext 6 (pack (.arr es) ++ pack body))) DCtx.idle
      = (.ok (refResolve es body), DCtx.idle)
    ∧ Codec.loads ⟨[]⟩ (pack (.ext 6 (pack (.arr [.str strHello, .str strWorld])
        ++ pack (.arr [refExt 0, refExt 1, refExt 0])))) DCtx.idle
      = (.ok (.arr [.str strHello, .str strWorld, .str strHello]), DCtx.idle) :=
  ⟨loads_frame c es body hlen hwf hfree hbwf hbref hplen, by rfl⟩

theorem c5_frame_decode_witness :
    Codec.loads ⟨[]⟩ (pack (.ext 6 (pack (.arr [MValue.nil]) ++ pack (refExt 0))))
        DCtx.idle = (.ok (refResolve [MValue.nil] (refExt 0)), DCtx.idle)
    ∧ Codec.loads ⟨[]⟩ (pack (.ext 6 (pack (.arr [.str strHello, .str strWorld])
        ++ pack (.arr [refExt 0, refExt 1, refExt 0])))) DCtx.idle
      = (.ok (.arr [.str strHello, .str strWorld, .str strHello]), DCtx.idle) :=
  c5_frame_decode ⟨[]⟩ [MValue.nil] (refExt 0) (by decide) (by decide) (by decide)
    (by decide) (by decide) (by decide)

/-- Claim C6 counterexample: `Codec.dumps` has no `finally` — when the pack
raises after an `Intern` wrapper activated the table (here: an unregistered
user object follows the wrapper), the error propagates with the intern
context still active, not torn down to S0. -/
theorem c6_teardown_counterexample :
    Codec.dumps ⟨[]⟩ (.arr [.intern 1 2 true (.str [120]), .obj 9 99 .nil])
        InternContextE.idle
      = (.error (.unserializable 99),
         ⟨true, some ⟨[pack (.str [120])], [.str [120]], [(2, 0)]⟩⟩)
    ∧ (Codec.dumps ⟨[]⟩ (.arr [.intern 1 2 true (.str [120]), .obj 9 99 .nil])
        InternContextE.idle).2.active = true
    ∧ InternContextE.idle.active = false := ⟨by rfl, by rfl, by rfl⟩

/-- Claim C6 (corrected): `loads` from the idle state leaves the decode
context idle on every exit path (`decode_intern_table` has the `finally`),
and a `dumps` that returns normally always hands back an inactive context
(`maybe_wrap_with_table` ends any active table); but a `dumps` that raises
can leave the context active — the next `dumps` force-closes it on entry. -/
theorem c6_teardown_amended (c : Codec) (obj : EValue) :
    (∀ bs st1, c.dumps obj InternContextE.idle = (.ok bs, st1)
      → st1.active = false)
    ∧ (∀ data, (c.loads data DCtx.idle).2 = DCtx.idle) := by
  constructor
  · intro bs st1 h
    rw [Codec.dumps] at h
    cases hep : epack c obj (if InternContextE.idle.active = true
        then InternContextE.idle else InternContextE.idle) with
    | mk fst snd =>
        rw [hep] at h
        cases fst with
        | error e => simp at h
        | ok body =>
            dsimp only at h
            have h2 := maybe_wrap_snd_inactive snd body
            rw [h] at h2
            exact h2
  · intro data
    rw [Codec.loads]
    have h := hunpack_snd_idle c (data.length + 1) data
    cases hh : hunpack c (data.length + 1) DCtx.idle data with
    | mk fst snd =>
        rw [hh] at h
        dsimp only at h
        subst h
        cases fst with
        | error e => rfl
        | ok p =>
            obtain ⟨v, rest⟩ := p
            dsimp only
            split_ifs <;> rfl

/-- Claim C7 (confirmed): with the name already registered, `add_module`
succeeds exactly when the stored occupant is literally the module itself
(the `is` check, modelled by object identity `moduleId = some m.oid`); any
other occupant makes it fail with `DuplicateNamespace` and leave the codec
unchanged. -/
theorem c7_add_module (c : Codec) (m : NamespaceModule) (stored : StoredNs)
    (h : alookup m.name c.namespaces = some stored) :
    ((c.add_module m).2 = true ↔ stored.moduleId = some m.oid)
    ∧ ((c.add_module m).2 = false → c.add_module m = (c, false)) := by
  rw [Codec.add_module, h]
  dsimp only
  by_cases hm : stored.moduleId = some m.oid
  · rw [if_pos hm]
    exact ⟨⟨fun _ => hm, fun _ => rfl⟩, fun h2 => by simp at h2⟩
  · rw [if_neg hm]
    exact ⟨⟨fun h2 => by simp at h2, fun h2 => absurd h2 hm⟩, fun _ => rfl⟩

theorem c7_add_module_witness :
    ((Codec.add_module ⟨[([110], ⟨some 7, .typed []⟩)]⟩ ⟨7, [110], []⟩).2 = true
      ↔ (⟨some 7, .typed []⟩ : StoredNs).moduleId = some (7 : Nat))
    ∧ ((Codec.add_module ⟨[([110], ⟨some 7, .typed []⟩)]⟩ ⟨7, [110], []⟩).2 = false
      → Codec.add_module ⟨[([110], ⟨some 7, .typed []⟩)]⟩ ⟨7, [110], []⟩
        = (⟨[([110], ⟨some 7, .typed []⟩)]⟩, false)) :=
  c7_add_module ⟨[([110], ⟨some 7, .typed []⟩)]⟩ ⟨7, [110], []⟩
    ⟨some 7, .typed []⟩ (by rfl)

/-- Claim C8 (confirmed): an extension record whose code is neither 6 nor 8
round-trips verbatim — `_ext_hook` falls through to returning the raw
`ExtType` — so foreign extensions pass through `dumps` then `loads`
unchanged. -/
theorem c8_foreign_ext (c : Codec) (code : Int) (payload : List Nat)
    (h0 : 0 ≤ code) (h127 : code ≤ 127) (h6 : code ≠ 6) (h8 : code ≠ 8)
    (hlen : payload.length < 2 ^ 32) :
    c.dumps (.ext code payload) InternContextE.idle
      = (.ok (pack (.ext code payload)), InternContextE.idle)
    ∧ c.loads (pack (.ext code payload)) DCtx.idle
      = (.ok (.ext code payload), DCtx.idle) := by
  constructor
  · refine dumps_inactive c _ _ rfl _ _ ?_ rfl
    rw [epack, if_pos hlen]
  · exact loads_of_hunpack c _ _ _ _
      (hunpack_foreign c (pack (.ext code payload)).length code payload
        h0 h127 h6 h8 hlen)

theorem c8_foreign_ext_witness :
    Codec.dumps ⟨[]⟩ (.ext 42 [1, 2, 3]) InternContextE.idle
      = (.ok (pack (.ext 42 [1, 2, 3])), InternContextE.idle)
    ∧ Codec.loads ⟨[]⟩ (pack (.ext 42 [1, 2, 3])) DCtx.idle
      = (.ok (.ext 42 [1, 2, 3]), DCtx.idle) :=
  c8_foreign_ext ⟨[]⟩ 42 [1, 2, 3] (by norm_num) (by norm_num) (by norm_num)
    (by norm_num) (by norm_num)

/-- Claim C9 counterexample: a by-identity miss appends the original to
`originals` too — encoding one `Intern` wrapper in by-identity mode from the
idle context ends with `originals = [x]`, not `[]` as the claim (originals
kept only for by-equality mode) would have it. -/
theorem c9_intern_miss_counterexample :
    epack ⟨[]⟩ (.intern 1 2 true (.str [120])) InternContextE.idle
      = (.ok (pack (.ext 6 (packInt 0))),
         ⟨true, some ⟨[pack (.str [120])], [.str [120]], [(2, 0)]⟩⟩)
    ∧ ([EValue.str [120]] : List EValue) ≠ [] := ⟨by rfl, by simp⟩

/-- Claim C9 (corrected): on a dedup miss the blob is appended to the entries,
`by_id` is updated only in by-identity mode, and the original value is
appended to `originals` unconditionally — in both modes (`InternTable.intern`
appends to `self.originals` on every miss). -/
theorem c9_intern_miss_amended (c : Codec) (w a : Nat) (byId : Bool)
    (x : EValue) (t : InternTableE) (blob : List Nat)
    (hmiss : t.findIn x byId a = none)
    (hx : epack c x ⟨true, some t⟩ = (.ok blob, ⟨true, some t⟩)) :
    epack c (.intern w a byId x) ⟨true, some t⟩
      = (.ok (pack (.ext 6 (packInt (t.table.length : Int)))),
         ⟨true, some ⟨t.table ++ [blob], t.originals ++ [x],
           if byId then aset a t.table.length t.by_id else t.by_id⟩⟩) := by
  simp only [epack, InternContextE.ensure_table, if_true, Option.getD, hmiss, hx]

theorem c9_intern_miss_amended_witness :
    epack ⟨[]⟩ (.intern 1 2 false (.str [120])) ⟨true, some ⟨[], [], []⟩⟩
      = (.ok (pack (.ext 6 (packInt (([] : List (List Nat)).length : Int)))),
         ⟨true, some ⟨[] ++ [pack (.str [120])], [] ++ [.str [120]],
           if false then aset 2 ([] : List (List Nat)).length [] else []⟩⟩) :=
  c9_intern_miss_amended ⟨[]⟩ 1 2 false (.str [120]) ⟨[], [], []⟩
    (pack (.str [120])) (by rfl) (by rfl)

/-- Claim C10 (confirmed): every type-map binding maps a type to an entry
registered for exactly that type; a value whose concrete type has a binding
is encoded with that entry's namespace, type id and encoder; and a value
whose concrete type has no binding (e.g. an instance of a strict subclass of
a registered type) fails with the cannot-serialize error when no catch-all
namespace matches. -/
theorem c10_exact_dispatch :
    (∀ (nss : List (List Nat × StoredNs)) (k : Nat)
        (e : List Nat × Nat × TypedCodec),
        alookup k (buildTypeMap nss) = some e → e.2.2.pyType = k)
    ∧ (∀ (c : Codec) (oid ty : Nat) (d : EValue) (st : InternContextE)
        (nsName : List Nat) (tid : Nat) (tc : TypedCodec),
        alookup ty (buildTypeMap c.namespaces) = some (nsName, tid, tc) →
        (pack (.str nsName) ++ packInt tid ++ tc.enc (.obj oid ty d)).length < 2 ^ 32 →
        epack c (.obj oid ty d) st
          = (.ok (pack (.ext 8 (pack (.str nsName) ++ packInt tid
              ++ tc.enc (.obj oid ty d)))), st))
    ∧ (∀ (c : Codec) (oid ty : Nat) (d : EValue) (st : InternContextE),
        alookup ty (buildTypeMap c.namespaces) = none →
        findCatchAll (.obj oid ty d) c.namespaces = none →
        epack c (.obj oid ty d) st = (.error (.unserializable ty), st)) := by
  refine ⟨fun nss k e h => buildTypeMap_pyType nss k e h, ?_, ?_⟩
  · intro c oid ty d st nsName tid tc hmap hlen
    rw [epack, hmap]
    dsimp only
    rw [if_pos hlen]
  · intro c oid ty d st hmap hca
    rw [epack, hmap]
    dsimp only
    rw [hca]

end ToBytes
